import Mathlib

/-!
Verification development for the conflux client library
(packages `conflux-utils` and `conflux-client`).

JavaScript strings are modelled as `List Char`, byte buffers as `List Nat`
whose entries are below 256, and JavaScript numbers as exact integers
(`Int`), i.e. the safe-integer range on which the source's arithmetic is
exact.  Fallible source functions (every function that can `throw`) return
`Option` or `Except`.
-/

namespace Conflux

/-- Models `String.prototype.toLowerCase` on the ASCII range: characters
`A`-`Z` (code points 65-90) are shifted down by 32, everything else is kept.
No character outside this range lowercases to an ASCII hex digit, so the
model agrees with the source wherever the result feeds the hex check. -/
def asciiLower (c : Char) : Char :=
  if 65 ≤ c.toNat ∧ c.toNat ≤ 90 then Char.ofNat (c.toNat + 32) else c

/-- The lowercase hex character for a digit value below 16, as produced by
`Number.prototype.toString(16)` and `Buffer.prototype.toString('hex')`. -/
def hexDigitChar (d : Nat) : Char :=
  if d < 10 then Char.ofNat (48 + d) else Char.ofNat (87 + d)

/-- The value of a lowercase hex character (`0`-`9`, `a`-`f`), `none`
otherwise.  This is the character class of the source's regular expression
`[0-9a-f]`. -/
def hexCharVal (c : Char) : Option Nat :=
  if 48 ≤ c.toNat ∧ c.toNat ≤ 57 then some (c.toNat - 48)
  else if 97 ≤ c.toNat ∧ c.toNat ≤ 102 then some (c.toNat - 87)
  else none

/-- Whether a character matches `[0-9a-f]`. -/
def isHexChar (c : Char) : Bool :=
  (hexCharVal c).isSome

/-- Fuel-bounded little-endian base-`B` digit extraction; the fuel makes
the recursion structural (hence kernel-computable) and is irrelevant as
soon as it is at least `n`. -/
def natToBaseRevAux (B : Nat) : Nat → Nat → List Nat
  | _, 0 => []
  | n, fuel + 1 =>
    if n = 0 ∨ B ≤ 1 then [] else (n % B) :: natToBaseRevAux B (n / B) fuel

/-- Little-endian base-`B` digits of `n` (`[]` for `0`).  Only used with
`B = 16` (hex digits) and `B = 256` (bytes). -/
def natToBaseRev (B n : Nat) : List Nat :=
  natToBaseRevAux B n n

/-- Little-endian hex digits of `n` (`[]` for `0`). -/
def natToHexRev (n : Nat) : List Nat :=
  natToBaseRev 16 n

/-- Big-endian hex digit values of `n`, with `[0]` for `0`: the digit string
produced by `n.toString(16)` for a natural number `n`. -/
def natHexDigits (n : Nat) : List Nat :=
  if n = 0 then [0] else (natToHexRev n).reverse

/-- The character string `n.toString(16)` for a natural number `n`. -/
def natToString16 (n : Nat) : List Char :=
  (natHexDigits n).map hexDigitChar

/-- The character string `i.toString(16)` for an integer: negative values
render with a leading minus sign. -/
def intToString16 : Int → List Char
  | .ofNat n => natToString16 n
  | .negSucc m => '-' :: natToString16 (m + 1)

/-- Big-endian value of a hex digit list. -/
def beVal16 (ds : List Nat) : Nat :=
  ds.foldl (fun a d => 16 * a + d) 0

/-- Big-endian value of a byte list ("decoding as an unsigned big-endian
integer"). -/
def beVal256 (bs : List Nat) : Nat :=
  bs.foldl (fun a b => 256 * a + b) 0

/-- Little-endian bytes of `n` (`[]` for `0`). -/
def natToBytesRev (n : Nat) : List Nat :=
  natToBaseRev 256 n

/-- The minimal big-endian byte representation of `n`: no leading zero byte,
and `0` is represented by the empty byte sequence. -/
def natMinBE (n : Nat) : List Nat :=
  (natToBytesRev n).reverse

/-- Big-endian hex digit values of a byte list (two digits per byte), as in
`Buffer.prototype.toString('hex')`. -/
def bytesToHexDigits : List Nat → List Nat
  | [] => []
  | b :: bs => b / 16 :: b % 16 :: bytesToHexDigits bs

/-- The lowercase hex character string of a byte list. -/
def bytesToHexChars (bs : List Nat) : List Char :=
  (bytesToHexDigits bs).map hexDigitChar

/-- The hex string `'0x' + buffer.toString('hex')` of a byte list — the
Buffer branch of the source's `Hex`. -/
def hexOfBytes (bs : List Nat) : List Char :=
  '0' :: 'x' :: bytesToHexChars bs

/-- Parses a character string as hex byte pairs, as `Buffer.from(str, 'hex')`
does: consumes two hex characters per byte and stops at the first character
pair that is not hex (or at a trailing lone character). -/
def parseHexPairs : List Char → List Nat
  | c1 :: c2 :: rest =>
    match hexCharVal c1, hexCharVal c2 with
    | some d1, some d2 => (16 * d1 + d2) :: parseHexPairs rest
    | _, _ => []
  | _ => []

/-- The values the source's type coercions receive at runtime: `null`, a
number (modelled as an exact integer), a string, or a `Buffer`. -/
inductive JsValue where
  | null
  | num (i : Int)
  | str (s : List Char)
  | buf (b : List Nat)
deriving DecidableEq

/-- Well-formedness of a runtime value: a `Buffer` holds bytes. -/
def JsValue.wf : JsValue → Prop
  | .buf b => ∀ x ∈ b, x < 256
  | _ => True

/-- The string normalization inside the source's `Hex` string branch:
lowercase, prepend `0x` unless already present, and left-pad the payload
with one `0` when the total length is odd. -/
def hexNormalize (s : List Char) : List Char :=
  let s1 := s.map asciiLower
  let s2 := if s1.take 2 = ['0', 'x'] then s1 else '0' :: 'x' :: s1
  if s2.length % 2 = 1 then '0' :: 'x' :: '0' :: s2.drop 2 else s2

/-- The test of the source's regular expression `^0x[0-9a-f]*$`. -/
def isHexFormat (t : List Char) : Bool :=
  match t with
  | '0' :: 'x' :: rest => rest.all isHexChar
  | _ => false

/-- The string branch of `Hex`: normalize, then throw unless the result
matches `^0x[0-9a-f]*$`. -/
def hexOnStr (s : List Char) : Option (List Char) :=
  let t := hexNormalize s
  if isHexFormat t then some t else none

/-- The source's `Hex` coercion (`lib/type.js`): `null` maps to `'0x'`,
numbers go through `toString(16)` and the string branch, strings are
normalized and validated, and Buffers are hex-dumped.  `none` models a
thrown format error. -/
def Hex : JsValue → Option (List Char)
  | .null => some ['0', 'x']
  | .num i => hexOnStr (intToString16 i)
  | .str s => hexOnStr s
  | .buf b => some (hexOfBytes b)

/-- The source's `Hex.toBuffer`: convert the value to canonical hex, parse
the payload as bytes, and collapse the single zero byte `0x00` to the empty
byte sequence. -/
def Hex.toBuffer (v : JsValue) : Option (List Nat) :=
  match Hex v with
  | none => none
  | some t =>
    let b := parseHexPairs (t.drop 2)
    some (if b = [0] then [] else b)

/-- A canonical hex value in the spec's sense: `0x` followed by an even
number of lowercase hex digits (the test of `^0x([0-9a-f][0-9a-f])*$`). -/
def isCanonicalHex (t : List Char) : Bool :=
  decide (t.take 2 = ['0', 'x']) && (t.drop 2).all isHexChar &&
    decide ((t.drop 2).length % 2 = 0)

/-- The hex digits of `n` left-padded with one `0` to even length. -/
def paddedHexDigits (n : Nat) : List Nat :=
  if (natHexDigits n).length % 2 = 1 then 0 :: natHexDigits n else natHexDigits n

/-- The canonical hex string of a natural number: its minimal hex digit
string, left-padded with one `0` to even length, behind `0x`. -/
def canonicalHexOfNat (n : Nat) : List Char :=
  '0' :: 'x' :: (paddedHexDigits n).map hexDigitChar

/-- Whether a character is an ASCII decimal digit. -/
def isDecDigit (c : Char) : Bool :=
  48 ≤ c.toNat && c.toNat ≤ 57

/-- Whether a character is a hex digit of either case, the digit class of a
JavaScript `0x` numeric literal. -/
def isHexNumChar (c : Char) : Bool :=
  isHexChar c || (65 ≤ c.toNat && c.toNat ≤ 70)

/-- Value of a hex-literal digit of either case. -/
def hexNumVal (c : Char) : Nat :=
  if 65 ≤ c.toNat ∧ c.toNat ≤ 70 then c.toNat - 55 else (hexCharVal c).getD 0

/-- Big-endian value of a decimal digit string. -/
def decVal (ds : List Char) : Nat :=
  ds.foldl (fun a c => 10 * a + (c.toNat - 48)) 0

/-- Big-endian value of a mixed-case hex digit string. -/
def hexVal (ds : List Char) : Nat :=
  ds.foldl (fun a c => 16 * a + hexNumVal c) 0

/-- The whitespace characters trimmed by the JavaScript string-to-number
coercion: the ECMAScript WhiteSpace and LineTerminator code points. -/
def isJsSpace (c : Char) : Bool :=
  c.toNat = 9 || c.toNat = 10 || c.toNat = 11 || c.toNat = 12 ||
    c.toNat = 13 || c.toNat = 32 || c.toNat = 160 || c.toNat = 0x1680 ||
    (0x2000 ≤ c.toNat && c.toNat ≤ 0x200A) || c.toNat = 0x2028 ||
    c.toNat = 0x2029 || c.toNat = 0x202F || c.toNat = 0x205F ||
    c.toNat = 0x3000 || c.toNat = 0xFEFF

/-- Whether a character is a binary digit. -/
def isBinDigit (c : Char) : Bool :=
  c.toNat = 48 || c.toNat = 49

/-- Whether a character is an octal digit. -/
def isOctDigit (c : Char) : Bool :=
  48 ≤ c.toNat && c.toNat ≤ 55

/-- Big-endian value of a binary digit string. -/
def binVal (ds : List Char) : Nat :=
  ds.foldl (fun a c => 2 * a + (c.toNat - 48)) 0

/-- Big-endian value of an octal digit string. -/
def octVal (ds : List Char) : Nat :=
  ds.foldl (fun a c => 8 * a + (c.toNat - 48)) 0

/-- Parses the ECMAScript ExponentPart digits (after the `e`/`E`): an
optionally signed non-empty decimal digit string. -/
def parseExpDigits : List Char → Option Int
  | '-' :: ds => if ds ≠ [] ∧ ds.all isDecDigit then some (-(decVal ds : Int)) else none
  | '+' :: ds => if ds ≠ [] ∧ ds.all isDecDigit then some (decVal ds) else none
  | ds => if ds ≠ [] ∧ ds.all isDecDigit then some (decVal ds) else none

/-- Parses an unsigned decimal mantissa `digits [. digits]` (at least one
digit on one side of the point): the value of all digits run together and
the number of fraction digits. -/
def parseMantissa (m : List Char) : Option (Nat × Nat) :=
  let ip := m.takeWhile isDecDigit
  match m.dropWhile isDecDigit with
  | [] => if ip.isEmpty then none else some (decVal ip, 0)
  | '.' :: fp =>
    if fp.all isDecDigit && (!ip.isEmpty || !fp.isEmpty) then
      some (decVal (ip ++ fp), fp.length)
    else none
  | _ => none

/-- Parses an unsigned ECMAScript StrUnsignedDecimalLiteral (mantissa with
optional `e`/`E` exponent) and returns its exact mathematical value when
that value is an integer (so `'1e2' ↦ 100` and `'5.0' ↦ 5`), and `none`
when the literal is malformed or its value is not an integer.  Values are
exact: the source's float64 rounds values beyond the safe-integer range and
overflows to infinity beyond its range, which is outside this model — the
same exact-integer boundary as the rest of the development. -/
def parseDecLiteral (body : List Char) : Option Int := do
  let m := body.takeWhile (fun c => !(c == 'e' || c == 'E'))
  let (M, f) ← parseMantissa m
  let e : Int ←
    match body.dropWhile (fun c => !(c == 'e' || c == 'E')) with
    | [] => some 0
    | _ :: es => parseExpDigits es
  if (f : Int) ≤ e then
    some ((M : Int) * 10 ^ (e - (f : Int)).toNat)
  else
    let k := ((f : Int) - e).toNat
    if 10 ^ k ∣ M then some ((M / 10 ^ k : Nat) : Int) else none

/-- Models the JavaScript `Number()` coercion on strings, following the
ECMAScript StringNumericLiteral grammar: trim the whitespace, an empty
remainder gives `0`, `0x`/`0X`, `0b`/`0B` and `0o`/`0O` prefixes introduce
unsigned hex, binary and octal integer literals, and everything else is an
optionally signed decimal literal with optional fraction and exponent,
taken at its exact mathematical value.  `none` stands for every outcome
that is not an integer (`NaN`, infinities and fractional values), for
which the hex conversion applied next in the source throws on the `.`, the
digits of `NaN` or of `Infinity` in the number's string rendering. -/
def jsNumberOfStr (s : List Char) : Option Int :=
  let t := (s.dropWhile isJsSpace).reverse.dropWhile isJsSpace |>.reverse
  if t = [] then some 0
  else if t.take 2 = ['0', 'x'] ∨ t.take 2 = ['0', 'X'] then
    let rest := t.drop 2
    if rest ≠ [] ∧ rest.all isHexNumChar then some (hexVal rest) else none
  else if t.take 2 = ['0', 'b'] ∨ t.take 2 = ['0', 'B'] then
    let rest := t.drop 2
    if rest ≠ [] ∧ rest.all isBinDigit then some (binVal rest) else none
  else if t.take 2 = ['0', 'o'] ∨ t.take 2 = ['0', 'O'] then
    let rest := t.drop 2
    if rest ≠ [] ∧ rest.all isOctDigit then some (octVal rest) else none
  else
    match t with
    | '-' :: body => (parseDecLiteral body).map (fun i => -i)
    | '+' :: body => parseDecLiteral body
    | body => parseDecLiteral body

/-- Models the JavaScript `Number()` coercion on the value shapes `Epoch`
receives: `null` gives `0`, numbers are themselves, strings are parsed. -/
def jsNumber : JsValue → Option Int
  | .null => some 0
  | .num i => some i
  | .str s => jsNumberOfStr s
  | .buf _ => none

/-- Models the `BigNumber(value)` constructor on the shapes `Drip` receives:
numbers are themselves, strings parse as `0x`/`0X`, `0b`/`0B` or `0o`/`0O`
prefixed integer literals or as optionally signed decimal literals with
optional fraction and exponent, taken at their exact value (so
`'1e2' ↦ 100` and `'5.0' ↦ 5`; no whitespace, no empty string).  `none`
stands for `NaN` and non-integral results, for which the hex conversion
applied next in the source throws. -/
def jsBigNumber : JsValue → Option Int
  | .null => none
  | .num i => some i
  | .buf _ => none
  | .str s =>
    if s.take 2 = ['0', 'x'] ∨ s.take 2 = ['0', 'X'] then
      let rest := s.drop 2
      if rest ≠ [] ∧ rest.all isHexNumChar then some (hexVal rest) else none
    else if s.take 2 = ['0', 'b'] ∨ s.take 2 = ['0', 'B'] then
      let rest := s.drop 2
      if rest ≠ [] ∧ rest.all isBinDigit then some (binVal rest) else none
    else if s.take 2 = ['0', 'o'] ∨ s.take 2 = ['0', 'O'] then
      let rest := s.drop 2
      if rest ≠ [] ∧ rest.all isOctDigit then some (octVal rest) else none
    else
      match s with
      | '-' :: body => (parseDecLiteral body).map (fun i => -i)
      | '+' :: body => parseDecLiteral body
      | body => parseDecLiteral body

/-- The source's `Drip`: `Hex(BigNumber(value))`, then reject results
shorter than two characters (unreachable, since `Hex` output starts with
`0x`). -/
def Drip (v : JsValue) : Option (List Char) := do
  let i ← jsBigNumber v
  let t ← hexOnStr (intToString16 i)
  if t.length < 2 then none else some t

/-- The source's `Address`: canonical hex of exactly 20 payload bytes. -/
def Address (v : JsValue) : Option (List Char) := do
  let t ← Hex v
  if t.length = 2 + 40 then some t else none

/-- The source's `PrivateKey` coercion: canonical hex of exactly 32 payload
bytes. -/
def PrivateKey (v : JsValue) : Option (List Char) := do
  let t ← Hex v
  if t.length = 2 + 64 then some t else none

/-- The three sentinel strings accepted by `Epoch`. -/
def epochSentinels : List (List Char) :=
  ["earliest".data, "latest_state".data, "latest_mined".data]

/-- The source's `Epoch`: lowercase string inputs, return them if they are
one of the three sentinels, otherwise return `Hex(Number(value))`. -/
def Epoch (v : JsValue) : Option (List Char) :=
  let w := match v with
    | .str s => JsValue.str (s.map asciiLower)
    | x => x
  match w with
  | .str s =>
    if s ∈ epochSentinels then some s
    else match jsNumberOfStr s with
      | some i => hexOnStr (intToString16 i)
      | none => none
  | x =>
    match jsNumber x with
    | some i => hexOnStr (intToString16 i)
    | none => none

/-- Big-endian byte list of a big-endian hex digit list of even length: one
byte per digit pair.  A trailing lone digit (odd length) is dropped. -/
def pairBE : List Nat → List Nat
  | d1 :: d2 :: ds => (16 * d1 + d2) :: pairBE ds
  | _ => []

/-- The recursive length-prefixed encoding of one byte string, as the
external `rlp` library used by `rlpEncode` in `lib/sign.js` computes it
(RLP): a single byte below `0x80` stands for itself, short strings get a
`0x80 + length` prefix, longer ones a `0xb7 + length-of-length` prefix
followed by the big-endian length. -/
def rlpEncodeBytes (b : List Nat) : List Nat :=
  if b.length = 1 ∧ b.headD 0 < 128 then b
  else if b.length ≤ 55 then (128 + b.length) :: b
  else (183 + (natMinBE b.length).length) :: (natMinBE b.length ++ b)

/-- RLP encoding of a flat list of byte strings, as `rlp.encode` computes it
for an array of Buffers: the concatenated item encodings behind a
`0xc0 + length` (short) or `0xf7 + length-of-length` (long) list header. -/
def rlpEncodeList (items : List (List Nat)) : List Nat :=
  let payload := (items.map rlpEncodeBytes).flatten
  if payload.length ≤ 55 then (192 + payload.length) :: payload
  else (247 + (natMinBE payload.length).length) :: (natMinBE payload.length ++ payload)

/-- A transaction as stored by the source's `Transaction` class: every
field holds the canonical hex string its constructor produced. -/
structure Transaction where
  nonce : List Char
  gasPrice : List Char
  gas : List Char
  to_ : List Char
  value : List Char
  data : List Char
  r : List Char
  s : List Char
  v : List Char
deriving DecidableEq

/-- The options object passed to the `Transaction` constructor; `none`
models an absent (`undefined`) field. -/
structure RawOptions where
  nonce : Option JsValue := none
  gasPrice : Option JsValue := none
  gas : Option JsValue := none
  to_ : Option JsValue := none
  value : Option JsValue := none
  data : Option JsValue := none
  r : Option JsValue := none
  s : Option JsValue := none
  v : Option JsValue := none

/-- Well-formedness of an optional constructor argument: absent, or a
well-formed runtime value. -/
def optWf : Option JsValue → Prop
  | none => True
  | some x => x.wf

/-- Well-formedness of a constructor options object: every present value is
a well-formed runtime value (a `Buffer` holds bytes). -/
def RawOptions.wf (o : RawOptions) : Prop :=
  optWf o.nonce ∧ optWf o.gasPrice ∧ optWf o.gas ∧ optWf o.to_ ∧
    optWf o.value ∧ optWf o.data ∧ optWf o.r ∧ optWf o.s ∧ optWf o.v

/-- A required constructor field: absent (`undefined`) throws, otherwise
the value is coerced with `f`. -/
def reqField (f : JsValue → Option (List Char)) : Option JsValue → Option (List Char)
  | none => none
  | some x => f x

/-- An optional constructor field: absent takes the default, otherwise the
value is coerced with `f`. -/
def defField (f : JsValue → Option (List Char)) (dflt : Option (List Char)) :
    Option JsValue → Option (List Char)
  | none => dflt
  | some x => f x

/-- The source's `Transaction.rawOptions` (also the `Transaction`
constructor): required fields throw when absent, `to`/`r`/`s`/`v` default
to `Hex(null) = '0x'`, `value` to `Drip(0)`, `data` to `Hex('')`. -/
def rawOptions (o : RawOptions) : Option Transaction := do
  let nonce ← reqField Hex o.nonce
  let gasPrice ← reqField Drip o.gasPrice
  let gas ← reqField Hex o.gas
  let to_ ← defField Address (Hex .null) o.to_
  let value ← defField Drip (Drip (.num 0)) o.value
  let data ← defField Hex (Hex (.str [])) o.data
  let r ← defField Hex (Hex .null) o.r
  let s ← defField Hex (Hex .null) o.s
  let v ← defField Hex (Hex .null) o.v
  return ⟨nonce, gasPrice, gas, to_, value, data, r, s, v⟩

/-- Maps a list of stored hex fields through `Hex.toBuffer`, propagating a
thrown format error (`raw.map(Hex.toBuffer)` in the source). -/
def toBuffers : List (List Char) → Option (List (List Nat))
  | [] => some []
  | t :: ts => do
    let b ← Hex.toBuffer (.str t)
    let bs ← toBuffers ts
    return b :: bs

/-- The source's `Transaction.prototype.encode`: map the six (or, with the
signature, nine) fields through `Hex.toBuffer` and RLP-encode the list.
The signature fields are appended in the order `v`, `r`, `s`. -/
def Transaction.encode (tx : Transaction) (includeSignature : Bool) : Option (List Nat) := do
  let raw := [tx.nonce, tx.gasPrice, tx.gas, tx.to_, tx.value, tx.data]
  let raw := if includeSignature then raw ++ [tx.v, tx.r, tx.s] else raw
  let bufs ← toBuffers raw
  return rlpEncodeList bufs

/-- The hash and elliptic-curve primitives of `lib/sign.js`, supplied there
by the external `keccak`, `secp256k1` and `elliptic` libraries; modelled as
parameters.  `ecdsaRecover` receives `Number(v)` with `none` for `NaN`, and
returns `none` where the library would throw; `privToPublic` is the
uncompressed-public-key derivation used for address computation. -/
structure SignPrims where
  sha3 : List Nat → List Nat
  ecdsaSign : List Nat → List Nat → List Nat × List Nat × Nat
  ecdsaRecover : List Nat → List Nat → List Nat → Option Int → Option (List Nat)
  privToPublic : List Nat → List Nat

/-- The source's `Transaction.prototype.hash`: keccak of the unsigned
encoding. -/
def Transaction.hash (P : SignPrims) (tx : Transaction) : Option (List Nat) := do
  let enc ← tx.encode false
  return P.sha3 enc

/-- Modelled from the spec: `publicKeyToAddress` is imported by the
transaction module from `lib/sign.js` but is absent from the provided
sources.  Per the spec it "derives the address as the low 20 bytes of the
hash of the uncompressed public key (minus its format-prefix byte)". -/
def publicKeyToAddress (sha3 : List Nat → List Nat) (publicKey : List Nat) : List Nat :=
  let h := sha3 (publicKey.drop 1)
  h.drop (h.length - 20)

/-- The source's `Transaction` `from` getter: recover the public key from
the hash and `r`, `s`, `Number(v)` and return the hex of its address; any
failure inside the `try` block yields `undefined` (`none`). -/
def Transaction.sender (P : SignPrims) (tx : Transaction) : Option (List Char) :=
  match tx.hash P, Hex.toBuffer (.str tx.r), Hex.toBuffer (.str tx.s) with
  | some h, some rb, some sb =>
    match P.ecdsaRecover h rb sb (jsNumberOfStr tx.v) with
    | some pk => some (hexOfBytes (publicKeyToAddress P.sha3 pk))
    | none => none
  | _, _, _ => none

/-- The source's `Transaction.prototype.sign`: sign the hash with the
validated private key and store `r`, `s`, `v` as hex strings. -/
def Transaction.sign (P : SignPrims) (tx : Transaction) (privateKey : List Char) :
    Option Transaction := do
  let h ← tx.hash P
  let pk ← PrivateKey (.str privateKey)
  let kb ← Hex.toBuffer (.str pk)
  let (r, s, v) := P.ecdsaSign h kb
  let rh ← Hex (.buf r)
  let sh ← Hex (.buf s)
  let vh ← Hex (.num v)
  return { tx with r := rh, s := sh, v := vh }

/-- An account of `wallet.js`: the validated private key and the address
derived from it at construction time. -/
structure Account where
  privateKey : List Char
  address : List Char
deriving DecidableEq

/-- Modelled from the spec: `privateKeyToAddress` of `lib/sign.js` is
absent from the provided sources (only its callers are).  Per the spec,
sender derivation is "the transaction's sole Address Derivation path", so
the account address is the address of the public key of the private key. -/
def privateKeyToAddress (P : SignPrims) (keyBuffer : List Nat) : List Nat :=
  publicKeyToAddress P.sha3 (P.privToPublic keyBuffer)

/-- The `Account` constructor of `wallet.js`. -/
def mkAccount (P : SignPrims) (privateKey : JsValue) : Option Account := do
  let pk ← PrivateKey privateKey
  let kb ← Hex.toBuffer (.str pk)
  let addr ← Address (.buf (privateKeyToAddress P kb))
  return ⟨pk, addr⟩

/-- The source's `Account.prototype.signTransaction`: build the
transaction, sign it, and throw unless the recovered sender equals the
account's address. -/
def Account.signTransaction (P : SignPrims) (acct : Account) (o : RawOptions) :
    Option Transaction := do
  let tx ← rawOptions o
  let tx' ← tx.sign P acct.privateKey
  if tx'.sender P = some acct.address then return tx' else none

/-- The key-derivation, hash and cipher primitives of `lib/sign.js`
(`scrypt.js`, `keccak`, AES-128-CTR from node `crypto`), modelled as
parameters. -/
structure CryptoPrims where
  scrypt32 : List Nat → List Nat → List Nat
  sha3 : List Nat → List Nat
  cipheriv : List Nat → List Nat → List Nat → List Nat
  decipheriv : List Nat → List Nat → List Nat → List Nat

/-- Byte-level laws the external crypto libraries satisfy: fixed 32-byte
scrypt output, byte-valued outputs, length-preserving counter-mode
encryption whose decryption inverts it, and an injective (collision-free)
hash — the idealization under which the keystore claims are stated. -/
structure CryptoPrims.Lawful (P : CryptoPrims) : Prop where
  scrypt_len : ∀ pw salt, (P.scrypt32 pw salt).length = 32
  scrypt_bytes : ∀ pw salt, (∀ b ∈ pw, b < 256) → (∀ b ∈ salt, b < 256) →
    ∀ b ∈ P.scrypt32 pw salt, b < 256
  sha3_bytes : ∀ d, (∀ b ∈ d, b < 256) → ∀ b ∈ P.sha3 d, b < 256
  cipher_len : ∀ key iv d, (P.cipheriv key iv d).length = d.length
  cipher_bytes : ∀ key iv d, (∀ b ∈ d, b < 256) → ∀ b ∈ P.cipheriv key iv d, b < 256
  decipher_cipher : ∀ key iv d, (∀ b ∈ d, b < 256) →
    P.decipheriv key iv (P.cipheriv key iv d) = d
  sha3_inj : Function.Injective P.sha3

/-- A concrete instantiation of the crypto primitives, used to settle the
keystore claims at explicit inputs: a key-derivation function whose MAC
half (bytes 16..32) does not depend on the password, the identity map as a
(maximally collision-free) hash, and byte reversal as a length-preserving
self-inverse cipher.  It satisfies every law in `CryptoPrims.Lawful`. -/
def cexPrims : CryptoPrims :=
  ⟨fun pw _ => ((pw ++ List.replicate 32 0).take 16) ++ List.replicate 16 5,
    fun d => d,
    fun _ _ d => d.reverse,
    fun _ _ d => d.reverse⟩

/-- A keystore record, all fields canonical hex strings. -/
structure KeystoreRecord where
  version : List Char
  salt : List Char
  iv : List Char
  cipher : List Char
  mac : List Char
deriving DecidableEq

/-- The fixed `PrivateKey.CRYPT_VERSION` constant `'3.5'`. -/
def cryptVersion : List Char := "3.5".data

/-- The source's `PrivateKey.encrypt`.  The fresh random salt and IV
(`randomBuffer(32)` and `randomBuffer(16)` in the source) are passed as
arguments; the password is its UTF-8 byte sequence
(`Buffer.from(password)`). -/
def PrivateKey.encrypt (P : CryptoPrims) (saltBuffer ivBuffer : List Nat)
    (privateKey : List Char) (password : List Nat) : Option KeystoreRecord := do
  let pk ← PrivateKey (.str privateKey)
  let keyBuffer ← Hex.toBuffer (.str pk)
  let derived := P.scrypt32 password saltBuffer
  let cipherBuffer := P.cipheriv (derived.take 16) ivBuffer keyBuffer
  let macBuffer := P.sha3 ((derived.drop 16).take 16 ++ cipherBuffer)
  return ⟨cryptVersion, hexOfBytes saltBuffer, hexOfBytes ivBuffer,
          hexOfBytes cipherBuffer, hexOfBytes macBuffer⟩

/-- Failure modes of `PrivateKey.decrypt`: version mismatch, MAC mismatch,
or a malformed hex field. -/
inductive KeystoreError where
  | badVersion
  | badMac
  | formatError
deriving DecidableEq

/-- The source's `PrivateKey.decrypt`: check the version, re-derive the key
material from the stored salt, recompute and compare the MAC, and only then
decipher. -/
def PrivateKey.decrypt (P : CryptoPrims) (record : KeystoreRecord) (password : List Nat) :
    Except KeystoreError (List Char) :=
  if record.version ≠ cryptVersion then .error .badVersion
  else
    match Hex.toBuffer (.str record.salt), Hex.toBuffer (.str record.iv),
        Hex.toBuffer (.str record.cipher) with
    | some saltBuffer, some ivBuffer, some cipherBuffer =>
      let derived := P.scrypt32 password saltBuffer
      let macBuffer := P.sha3 ((derived.drop 16).take 16 ++ cipherBuffer)
      if hexOfBytes macBuffer ≠ record.mac then .error .badMac
      else .ok (hexOfBytes (P.decipheriv (derived.take 16) ivBuffer cipherBuffer))
    | _, _, _ => .error .formatError

/-- A transaction receipt as reported by the node. -/
structure Receipt where
  outcomeStatus : Int
  blockHash : List Char
  contractCreated : List Char
deriving DecidableEq

/-- Failure modes of the polling loop: the deadline elapsed, or a receipt
reported a non-success outcome status. -/
inductive PollError where
  | timeout
  | outcomeFail
deriving DecidableEq

/-- The polling loop of `subscribe.js` under a deterministic time model:
`Timer.delta` anchors iteration `k` to wall-clock time `k * delta` after
the start and the query itself is instantaneous, so the loop's guard
`timer.duration < timeout` at iteration `k` reads `k * delta < timeout`.
`func` threads an explicit query counter `n`; `fuel` bounds the recursion
and is chosen so that with `delta ≥ 1` the deadline always strikes first. -/
def loopAux {α : Type} (func : Nat → Except PollError (Option α × Nat))
    (delta timeout : Nat) : Nat → Nat → Nat → Except PollError (α × Nat)
  | _, _, 0 => .error .timeout
  | k, n, fuel + 1 =>
    if k * delta < timeout then
      match func n with
      | .error e => .error e
      | .ok (some a, n') => .ok (a, n')
      | .ok (none, n') => loopAux func delta timeout (k + 1) n' fuel
    else .error .timeout

/-- The source's `loop` helper: poll `func` every `delta` ms until it
returns a value or `timeout` ms have elapsed. -/
def loop {α : Type} (func : Nat → Except PollError (Option α × Nat))
    (delta timeout n : Nat) : Except PollError (α × Nat) :=
  loopAux func delta timeout 0 n (timeout + 1)

/-- One poll of `PendingTransaction.executed`: query the receipt (the
`n`-th call of `getTransactionReceipt`, answered by `receiptSeq n`); a
receipt with success status (`0`) is the result, any other status throws,
no receipt means keep polling. -/
def executedF (receiptSeq : Nat → Option Receipt) (n : Nat) :
    Except PollError (Option Receipt × Nat) :=
  match receiptSeq n with
  | some receipt =>
    if receipt.outcomeStatus = 0 then .ok (some receipt, n + 1)
    else .error .outcomeFail
  | none => .ok (none, n + 1)

/-- The source's `PendingTransaction.executed`. -/
def executed (receiptSeq : Nat → Option Receipt) (delta timeout n : Nat) :
    Except PollError (Receipt × Nat) :=
  loop (executedF receiptSeq) delta timeout n

/-- One poll of `PendingTransaction.confirmed`: run `executed` with the
same options, then accept its receipt when the risk coefficient of its
block is below `bar`. -/
def confirmedF (receiptSeq : Nat → Option Receipt) (risk : List Char → ℚ) (bar : ℚ)
    (delta timeout : Nat) (n : Nat) : Except PollError (Option Receipt × Nat) :=
  match executed receiptSeq delta timeout n with
  | .error e => .error e
  | .ok (receipt, n') =>
    if risk receipt.blockHash < bar then .ok (some receipt, n')
    else .ok (none, n')

/-- The source's `PendingTransaction.confirmed`. -/
def confirmed (receiptSeq : Nat → Option Receipt) (risk : List Char → ℚ) (bar : ℚ)
    (delta timeout n : Nat) : Except PollError (Receipt × Nat) :=
  loop (confirmedF receiptSeq risk bar delta timeout) delta timeout n

/-! ### Character-level lemmas -/

theorem hexCharVal_hexDigitChar {d : Nat} (h : d < 16) :
    hexCharVal (hexDigitChar d) = some d := by
  interval_cases d <;> decide

theorem isHexChar_hexDigitChar {d : Nat} (h : d < 16) :
    isHexChar (hexDigitChar d) = true := by
  simp [isHexChar, hexCharVal_hexDigitChar h]

theorem asciiLower_hexDigitChar {d : Nat} (h : d < 16) :
    asciiLower (hexDigitChar d) = hexDigitChar d := by
  interval_cases d <;> decide

theorem hexDigitChar_ne_x {d : Nat} (h : d < 16) : hexDigitChar d ≠ 'x' := by
  interval_cases d <;> decide

theorem asciiLower_of_isHexChar {c : Char} (h : isHexChar c = true) :
    asciiLower c = c := by
  unfold isHexChar hexCharVal at h
  unfold asciiLower
  split
  · next hc =>
    split at h
    · omega
    · split at h
      · omega
      · simp at h
  · rfl

/-! ### Generic base-conversion lemmas, used at base 16 and base 256 -/

theorem natToBaseRevAux_congr {B : Nat} :
    ∀ f1 f2 n, n ≤ f1 → n ≤ f2 →
      natToBaseRevAux B n f1 = natToBaseRevAux B n f2
  | 0, f2, n, h1, h2 => by
    obtain rfl : n = 0 := Nat.le_zero.mp h1
    cases f2 with
    | zero => rfl
    | succ f2 => simp [natToBaseRevAux]
  | f1 + 1, 0, n, h1, h2 => by
    obtain rfl : n = 0 := Nat.le_zero.mp h2
    simp [natToBaseRevAux]
  | f1 + 1, f2 + 1, n, h1, h2 => by
    simp only [natToBaseRevAux]
    split
    · rfl
    · next h =>
      push_neg at h
      have hdiv : n / B < n := Nat.div_lt_self (Nat.pos_of_ne_zero h.1) h.2
      rw [natToBaseRevAux_congr f1 f2 (n / B) (by omega) (by omega)]

theorem natToBaseRev_eq (B n : Nat) :
    natToBaseRev B n =
      if n = 0 ∨ B ≤ 1 then [] else (n % B) :: natToBaseRev B (n / B) := by
  unfold natToBaseRev
  cases n with
  | zero => simp [natToBaseRevAux]
  | succ m =>
    simp only [natToBaseRevAux]
    split
    · rfl
    · next h =>
      push_neg at h
      have hdiv : (m + 1) / B < m + 1 := Nat.div_lt_self (by omega) h.2
      rw [natToBaseRevAux_congr m ((m + 1) / B) ((m + 1) / B) (by omega) (by omega)]

theorem natToBaseRev_lt {B : Nat} (hB : 2 ≤ B) :
    ∀ n, ∀ d ∈ natToBaseRev B n, d < B := by
  intro n
  induction n using Nat.strong_induction_on with
  | _ n ih =>
    intro d hd
    rw [natToBaseRev_eq] at hd
    split at hd
    · simp at hd
    · next h =>
      push_neg at h
      rcases List.mem_cons.mp hd with h1 | h2
      · exact h1 ▸ Nat.mod_lt n (by omega)
      · exact ih (n / B) (Nat.div_lt_self (Nat.pos_of_ne_zero h.1) h.2) d h2

theorem foldr_natToBaseRev {B : Nat} (hB : 2 ≤ B) :
    ∀ n, List.foldr (fun d a => B * a + d) 0 (natToBaseRev B n) = n := by
  intro n
  induction n using Nat.strong_induction_on with
  | _ n ih =>
    rw [natToBaseRev_eq]
    split
    · next h =>
      rcases h with h | h
      · simp [h]
      · omega
    · next h =>
      push_neg at h
      simp only [List.foldr_cons]
      rw [ih (n / B) (Nat.div_lt_self (Nat.pos_of_ne_zero h.1) h.2)]
      exact Nat.div_add_mod n B

theorem natToBaseRev_ne_nil {B n : Nat} (hB : 2 ≤ B) (hn : n ≠ 0) :
    natToBaseRev B n ≠ [] := by
  rw [natToBaseRev_eq]
  split
  · next h => rcases h with h | h <;> omega
  · simp

theorem natToBaseRev_getLast {B : Nat} (hB : 2 ≤ B) :
    ∀ n, n ≠ 0 → (natToBaseRev B n).getLast? ≠ some 0 := by
  intro n
  induction n using Nat.strong_induction_on with
  | _ n ih =>
    intro hn
    rw [natToBaseRev_eq]
    split
    · next h => rcases h with h | h <;> omega
    · next h =>
      push_neg at h
      by_cases hq : n / B = 0
      · have hlt : n < B := by
          rcases Nat.lt_or_ge n B with hlt | hge
          · exact hlt
          · exact absurd hq (by
              have := Nat.div_le_div_right (c := B) hge
              rw [Nat.div_self (by omega)] at this
              omega)
        rw [hq]
        rw [natToBaseRev_eq]
        simp only [le_refl, true_or, or_true, if_pos]
        simp [List.getLast?, Nat.mod_eq_of_lt hlt, hn]
      · have hcons := natToBaseRev_ne_nil hB hq (B := B)
        rcases List.exists_cons_of_ne_nil hcons with ⟨y, ys, hys⟩
        rw [hys, List.getLast?_cons_cons, ← hys]
        exact ih (n / B) (Nat.div_lt_self (Nat.pos_of_ne_zero h.1) h.2) hq

theorem foldr_base_pos {B : Nat} (hB : 2 ≤ B) :
    ∀ xs : List Nat, xs ≠ [] → xs.getLast? ≠ some 0 →
      0 < List.foldr (fun d a => B * a + d) 0 xs
  | [], h, _ => absurd rfl h
  | [x], _, hlast => by
    simp only [List.foldr_cons, List.foldr_nil, Nat.mul_zero, Nat.zero_add]
    simp [List.getLast?] at hlast
    omega
  | x :: y :: ys, _, hlast => by
    have ih := foldr_base_pos hB (y :: ys) (by simp)
      (by rwa [List.getLast?_cons_cons] at hlast)
    simp only [List.foldr_cons] at ih ⊢
    have hp : 0 < B * (B * List.foldr (fun d a => B * a + d) 0 ys + y) :=
      Nat.mul_pos (by omega) ih
    omega

theorem natToBaseRev_foldr {B : Nat} (hB : 2 ≤ B) :
    ∀ xs : List Nat, (∀ x ∈ xs, x < B) → xs.getLast? ≠ some 0 →
      natToBaseRev B (List.foldr (fun d a => B * a + d) 0 xs) = xs
  | [], _, _ => by
    rw [natToBaseRev_eq]
    simp
  | [x], hmem, hlast => by
    simp only [List.foldr_cons, List.foldr_nil, Nat.mul_zero, Nat.zero_add]
    simp [List.getLast?] at hlast
    have hx : x < B := hmem x (by simp)
    rw [natToBaseRev_eq]
    rw [if_neg (by omega)]
    rw [Nat.mod_eq_of_lt hx, Nat.div_eq_of_lt hx]
    rw [natToBaseRev_eq]
    simp
  | x :: y :: ys, hmem, hlast => by
    have ihlast : (y :: ys).getLast? ≠ some 0 := by
      rwa [List.getLast?_cons_cons] at hlast
    have ih := natToBaseRev_foldr hB (y :: ys)
      (fun z hz => hmem z (List.mem_cons_of_mem x hz)) ihlast
    have hpos := foldr_base_pos hB (y :: ys) (by simp) ihlast
    have hx : x < B := hmem x (by simp)
    simp only [List.foldr_cons] at ih hpos ⊢
    generalize hw : B * List.foldr (fun d a => B * a + d) 0 ys + y = w at ih hpos ⊢
    rw [natToBaseRev_eq]
    rw [if_neg (by
      push_neg
      have hle : B ≤ B * w := Nat.le_mul_of_pos_right B hpos
      constructor <;> omega)]
    have hmod : (B * w + x) % B = x := by
      rw [Nat.mul_add_mod]
      exact Nat.mod_eq_of_lt hx
    have hdiv : (B * w + x) / B = w := by
      rw [Nat.mul_add_div (by omega), Nat.div_eq_of_lt hx]
      omega
    rw [hmod, hdiv, ih]

/-! ### Hex digit strings of natural numbers -/

theorem natHexDigits_lt (n : Nat) : ∀ d ∈ natHexDigits n, d < 16 := by
  intro d hd
  unfold natHexDigits at hd
  split at hd
  · simp at hd
    omega
  · rw [List.mem_reverse] at hd
    exact natToBaseRev_lt (by norm_num) n d hd

theorem beVal16_natHexDigits (n : Nat) : beVal16 (natHexDigits n) = n := by
  unfold natHexDigits
  split
  · next h =>
    subst h
    rfl
  · unfold beVal16 natToHexRev
    rw [List.foldl_reverse]
    exact foldr_natToBaseRev (by norm_num) n

theorem natHexDigits_head {n : Nat} (hn : n ≠ 0) : (natHexDigits n).head? ≠ some 0 := by
  unfold natHexDigits natToHexRev
  rw [if_neg hn, List.head?_reverse]
  exact natToBaseRev_getLast (by norm_num) n hn

theorem natHexDigits_ne_nil (n : Nat) : natHexDigits n ≠ [] := by
  unfold natHexDigits natToHexRev
  split
  · simp
  · next h =>
    simp only [ne_eq, List.reverse_eq_nil_iff]
    exact natToBaseRev_ne_nil (by norm_num) h

/-! ### Pairing hex digits into bytes -/

theorem pairBE_lt : ∀ ds : List Nat, (∀ d ∈ ds, d < 16) → ∀ b ∈ pairBE ds, b < 256
  | [], _, b, hb => by simp [pairBE] at hb
  | [d], _, b, hb => by simp [pairBE] at hb
  | d1 :: d2 :: ds, h, b, hb => by
    simp only [pairBE, List.mem_cons] at hb
    rcases hb with hb | hb
    · have h1 := h d1 (by simp)
      have h2 := h d2 (by simp)
      omega
    · exact pairBE_lt ds (fun d hd => h d (by simp [hd])) b hb

theorem foldl256_pairBE : ∀ (ds : List Nat) (a : Nat), ds.length % 2 = 0 →
    (pairBE ds).foldl (fun a b => 256 * a + b) a = ds.foldl (fun a d => 16 * a + d) a
  | [], _, _ => rfl
  | [_], _, h => by simp at h
  | d1 :: d2 :: ds, a, h => by
    simp only [pairBE, List.foldl_cons]
    have heq : 256 * a + (16 * d1 + d2) = 16 * (16 * a + d1) + d2 := by ring
    rw [heq]
    exact foldl256_pairBE ds _ (by simp only [List.length_cons] at h ⊢; omega)

theorem beVal256_pairBE {ds : List Nat} (h : ds.length % 2 = 0) :
    beVal256 (pairBE ds) = beVal16 ds :=
  foldl256_pairBE ds 0 h

theorem parse_pairBE : ∀ ds : List Nat, (∀ d ∈ ds, d < 16) →
    parseHexPairs (ds.map hexDigitChar) = pairBE ds
  | [], _ => rfl
  | [d], _ => by simp [parseHexPairs, pairBE]
  | d1 :: d2 :: ds, h => by
    have h1 := h d1 (by simp)
    have h2 := h d2 (by simp)
    have ih := parse_pairBE ds (fun d hd => h d (by simp [hd]))
    simp only [List.map_cons, parseHexPairs, pairBE,
      hexCharVal_hexDigitChar h1, hexCharVal_hexDigitChar h2, ih]

/-! ### Byte lists to hex and back -/

theorem bytesToHexDigits_lt : ∀ bs : List Nat, (∀ b ∈ bs, b < 256) →
    ∀ d ∈ bytesToHexDigits bs, d < 16
  | [], _, d, hd => by simp [bytesToHexDigits] at hd
  | b :: bs, h, d, hd => by
    have hb := h b (by simp)
    simp only [bytesToHexDigits, List.mem_cons] at hd
    rcases hd with hd | hd | hd
    · omega
    · omega
    · exact bytesToHexDigits_lt bs (fun x hx => h x (by simp [hx])) d hd

theorem bytesToHexDigits_len : ∀ bs : List Nat,
    (bytesToHexDigits bs).length = 2 * bs.length
  | [] => rfl
  | b :: bs => by
    simp only [bytesToHexDigits, List.length_cons, bytesToHexDigits_len bs]
    ring

theorem pairBE_bytesToHexDigits : ∀ bs : List Nat, pairBE (bytesToHexDigits bs) = bs
  | [] => rfl
  | b :: bs => by
    simp only [bytesToHexDigits, pairBE, pairBE_bytesToHexDigits bs]
    congr 1
    omega

theorem parseHexPairs_bytesToHexChars {bs : List Nat} (h : ∀ b ∈ bs, b < 256) :
    parseHexPairs (bytesToHexChars bs) = bs := by
  unfold bytesToHexChars
  rw [parse_pairBE _ (bytesToHexDigits_lt bs h), pairBE_bytesToHexDigits]

/-! ### The string branch of `Hex` -/

theorem hexNormalize_shape (s : List Char) :
    ∃ rest, hexNormalize s = '0' :: 'x' :: rest ∧ rest.length % 2 = 0 := by
  simp only [hexNormalize]
  by_cases h1 : (s.map asciiLower).take 2 = ['0', 'x']
  · rw [if_pos h1]
    have hs : s.map asciiLower = '0' :: 'x' :: (s.map asciiLower).drop 2 := by
      conv_lhs => rw [← List.take_append_drop 2 (s.map asciiLower)]
      rw [h1]
      rfl
    have hl : (s.map asciiLower).length = 2 + ((s.map asciiLower).drop 2).length := by
      conv_lhs => rw [hs]
      simp
      omega
    by_cases h2 : (s.map asciiLower).length % 2 = 1
    · rw [if_pos h2]
      exact ⟨'0' :: (s.map asciiLower).drop 2, by rw [hs], by simp only [List.length_cons]; omega⟩
    · rw [if_neg h2]
      exact ⟨(s.map asciiLower).drop 2, hs, by omega⟩
  · rw [if_neg h1]
    by_cases h2 : ('0' :: 'x' :: s.map asciiLower).length % 2 = 1
    · rw [if_pos h2]
      simp only [List.length_cons] at h2
      exact ⟨'0' :: s.map asciiLower, rfl, by simp only [List.length_cons]; omega⟩
    · rw [if_neg h2]
      simp only [List.length_cons] at h2
      exact ⟨s.map asciiLower, rfl, by omega⟩

theorem hexOnStr_some {s t : List Char} (h : hexOnStr s = some t) :
    t = hexNormalize s ∧ isCanonicalHex t = true := by
  obtain ⟨rest, hr, he⟩ := hexNormalize_shape s
  simp only [hexOnStr] at h
  split at h
  · next hfmt =>
    obtain rfl : hexNormalize s = t := by injection h
    refine ⟨rfl, ?_⟩
    rw [hr] at hfmt ⊢
    simp only [isHexFormat] at hfmt
    simp only [isCanonicalHex, List.take_succ_cons, List.take_zero,
      List.drop_succ_cons, List.drop_zero]
    rw [hfmt]
    simp [he]
  · exact absurd h (by simp)

theorem hexOnStr_none {s : List Char} (h : hexOnStr s = none) :
    ∃ c ∈ (hexNormalize s).drop 2, isHexChar c = false := by
  obtain ⟨rest, hr, _⟩ := hexNormalize_shape s
  simp only [hexOnStr] at h
  split at h
  · exact absurd h (by simp)
  · next hfmt =>
    rw [hr] at hfmt ⊢
    simp only [isHexFormat] at hfmt
    simp only [List.drop_succ_cons, List.drop_zero]
    have h2 : ¬ ∀ c ∈ rest, isHexChar c = true := fun hc =>
      hfmt (List.all_eq_true.mpr hc)
    push_neg at h2
    obtain ⟨c, hc, hcf⟩ := h2
    exact ⟨c, hc, by simpa using hcf⟩

theorem isCanonicalHex_elim {t : List Char} (h : isCanonicalHex t = true) :
    ∃ rest, t = '0' :: 'x' :: rest ∧ (∀ c ∈ rest, isHexChar c = true) ∧
      rest.length % 2 = 0 := by
  unfold isCanonicalHex at h
  rw [Bool.and_eq_true, Bool.and_eq_true] at h
  obtain ⟨⟨h1, h2⟩, h3⟩ := h
  rw [decide_eq_true_eq] at h1 h3
  have ht : t = '0' :: 'x' :: t.drop 2 := by
    conv_lhs => rw [← List.take_append_drop 2 t]
    rw [h1]
    rfl
  exact ⟨t.drop 2, ht, List.all_eq_true.mp h2, h3⟩

theorem isCanonicalHex_intro {rest : List Char} (hall : ∀ c ∈ rest, isHexChar c = true)
    (he : rest.length % 2 = 0) : isCanonicalHex ('0' :: 'x' :: rest) = true := by
  unfold isCanonicalHex
  rw [Bool.and_eq_true, Bool.and_eq_true]
  simp only [List.take_succ_cons, List.take_zero, List.drop_succ_cons, List.drop_zero]
  exact ⟨⟨by simp, List.all_eq_true.mpr hall⟩, by simp [he]⟩

theorem hexOnStr_fix {t : List Char} (h : isCanonicalHex t = true) :
    hexOnStr t = some t := by
  obtain ⟨rest, rfl, hall, he⟩ := isCanonicalHex_elim h
  have hmap : ('0' :: 'x' :: rest).map asciiLower = '0' :: 'x' :: rest := by
    simp only [List.map_cons]
    rw [show asciiLower '0' = '0' by decide, show asciiLower 'x' = 'x' by decide]
    congr 2
    calc rest.map asciiLower = rest.map id :=
          List.map_congr_left (fun c hc => asciiLower_of_isHexChar (hall c hc))
      _ = rest := List.map_id rest
  have htake : List.take 2 ('0' :: 'x' :: rest) = ['0', 'x'] := rfl
  have hodd : ¬(('0' :: 'x' :: rest).length % 2 = 1) := by
    simp only [List.length_cons]
    omega
  have hfmt : isHexFormat ('0' :: 'x' :: rest) = true := by
    simp only [isHexFormat]
    exact List.all_eq_true.mpr hall
  simp only [hexOnStr, hexNormalize]
  rw [hmap, if_pos htake, if_neg hodd, if_pos hfmt]

theorem hexOfBytes_canonical {bs : List Nat} (h : ∀ b ∈ bs, b < 256) :
    isCanonicalHex (hexOfBytes bs) = true := by
  unfold hexOfBytes bytesToHexChars
  refine isCanonicalHex_intro (fun c hc => ?_) ?_
  · obtain ⟨d, hd, rfl⟩ := List.mem_map.mp hc
    exact isHexChar_hexDigitChar (bytesToHexDigits_lt bs h d hd)
  · simp only [List.length_map, bytesToHexDigits_len]
    omega

theorem Hex_canonical {v : JsValue} {t : List Char} (hwf : v.wf) (h : Hex v = some t) :
    isCanonicalHex t = true := by
  cases v with
  | null =>
    obtain rfl : (['0', 'x'] : List Char) = t := by injection h
    decide
  | num i => exact (hexOnStr_some h).2
  | str s => exact (hexOnStr_some h).2
  | buf b =>
    obtain rfl : hexOfBytes b = t := by injection h
    exact hexOfBytes_canonical hwf

theorem toBuffer_hexOfBytes {bs : List Nat} (h : ∀ b ∈ bs, b < 256) (hne : bs ≠ [0]) :
    Hex.toBuffer (.str (hexOfBytes bs)) = some bs := by
  unfold Hex.toBuffer
  simp only [Hex, hexOnStr_fix (hexOfBytes_canonical h)]
  simp only [hexOfBytes, List.drop_succ_cons, List.drop_zero]
  rw [parseHexPairs_bytesToHexChars h, if_neg hne]

/-! ### Canonical hex of natural numbers and the byte round trip -/

theorem take2_ne_0x : ∀ l : List Char, (∀ c ∈ l, isHexChar c = true) →
    l.take 2 ≠ ['0', 'x']
  | [], _ => by simp
  | [c], _ => by simp
  | c1 :: c2 :: t, h => by
    simp only [List.take_succ_cons, List.take_zero]
    intro heq
    have hc2 : c2 = 'x' := by
      injection heq with h1 h2
      injection h2 with h2 _
    have := h c2 (by simp)
    rw [hc2] at this
    exact absurd this (by decide)

theorem paddedHexDigits_lt (n : Nat) : ∀ d ∈ paddedHexDigits n, d < 16 := by
  intro d hd
  unfold paddedHexDigits at hd
  split at hd
  · rcases List.mem_cons.mp hd with h | h
    · omega
    · exact natHexDigits_lt n d h
  · exact natHexDigits_lt n d hd

theorem paddedHexDigits_even (n : Nat) : (paddedHexDigits n).length % 2 = 0 := by
  unfold paddedHexDigits
  split
  · next h =>
    simp only [List.length_cons]
    omega
  · next h => omega

theorem beVal16_paddedHexDigits (n : Nat) : beVal16 (paddedHexDigits n) = n := by
  unfold paddedHexDigits
  split
  · have : beVal16 (0 :: natHexDigits n) = beVal16 (natHexDigits n) := by
      unfold beVal16
      simp
    rw [this, beVal16_natHexDigits]
  · exact beVal16_natHexDigits n

theorem isCanonicalHex_canonicalHexOfNat (n : Nat) :
    isCanonicalHex (canonicalHexOfNat n) = true := by
  unfold canonicalHexOfNat
  refine isCanonicalHex_intro (fun c hc => ?_) ?_
  · obtain ⟨d, hd, rfl⟩ := List.mem_map.mp hc
    exact isHexChar_hexDigitChar (paddedHexDigits_lt n d hd)
  · rw [List.length_map]
    exact paddedHexDigits_even n

theorem hexOnStr_natToString16 (n : Nat) :
    hexOnStr (natToString16 n) = some (canonicalHexOfNat n) := by
  have hhex : ∀ c ∈ natToString16 n, isHexChar c = true := by
    intro c hc
    obtain ⟨d, hd, rfl⟩ := List.mem_map.mp hc
    exact isHexChar_hexDigitChar (natHexDigits_lt n d hd)
  have hmap : (natToString16 n).map asciiLower = natToString16 n := by
    calc (natToString16 n).map asciiLower = (natToString16 n).map id :=
          List.map_congr_left (fun c hc => asciiLower_of_isHexChar (hhex c hc))
      _ = natToString16 n := List.map_id _
  have htake : ¬((natToString16 n).take 2 = ['0', 'x']) := take2_ne_0x _ hhex
  simp only [hexOnStr, hexNormalize]
  rw [hmap, if_neg htake]
  by_cases hodd : (natHexDigits n).length % 2 = 1
  · have hcond : ('0' :: 'x' :: natToString16 n).length % 2 = 1 := by
      simp only [List.length_cons, natToString16, List.length_map]
      omega
    rw [if_pos hcond]
    simp only [List.drop_succ_cons, List.drop_zero]
    have hres : '0' :: 'x' :: '0' :: natToString16 n = canonicalHexOfNat n := by
      unfold canonicalHexOfNat paddedHexDigits natToString16
      rw [if_pos hodd]
      simp only [List.map_cons]
      rw [show hexDigitChar 0 = '0' by decide]
    rw [hres, if_pos (by
      rw [← hres]
      simp only [isHexFormat, List.all_cons, Bool.and_eq_true]
      exact ⟨by decide, List.all_eq_true.mpr hhex⟩)]
  · have hcond : ¬(('0' :: 'x' :: natToString16 n).length % 2 = 1) := by
      simp only [List.length_cons, natToString16, List.length_map]
      omega
    rw [if_neg hcond]
    have hres : '0' :: 'x' :: natToString16 n = canonicalHexOfNat n := by
      unfold canonicalHexOfNat paddedHexDigits natToString16
      rw [if_neg hodd]
    rw [hres, if_pos (by
      rw [← hres]
      simp only [isHexFormat]
      exact List.all_eq_true.mpr hhex)]

theorem Hex_num_nat (n : Nat) : Hex (.num (n : Int)) = some (canonicalHexOfNat n) := by
  simp only [Hex, intToString16]
  exact hexOnStr_natToString16 n

theorem natMinBE_zero : natMinBE 0 = [] := by
  rw [natMinBE, natToBytesRev, natToBaseRev_eq]
  simp

theorem beVal256_natMinBE (n : Nat) : beVal256 (natMinBE n) = n := by
  unfold beVal256 natMinBE natToBytesRev
  rw [List.foldl_reverse]
  exact foldr_natToBaseRev (by norm_num) n

theorem natMinBE_head {n : Nat} : (natMinBE n).head? ≠ some 0 := by
  by_cases hn : n = 0
  · subst hn
    rw [natMinBE_zero]
    simp
  · unfold natMinBE natToBytesRev
    rw [List.head?_reverse]
    exact natToBaseRev_getLast (by norm_num) n hn

theorem natMinBE_lt (n : Nat) : ∀ b ∈ natMinBE n, b < 256 := by
  intro b hb
  unfold natMinBE natToBytesRev at hb
  rw [List.mem_reverse] at hb
  exact natToBaseRev_lt (by norm_num) n b hb

theorem natMinBE_beVal256 {bs : List Nat} (hb : ∀ b ∈ bs, b < 256)
    (hh : bs.head? ≠ some 0) : natMinBE (beVal256 bs) = bs := by
  have h1 : beVal256 bs = (bs.reverse).foldr (fun d a => 256 * a + d) 0 := by
    unfold beVal256
    conv_lhs => rw [← List.reverse_reverse bs]
    rw [List.foldl_reverse]
  rw [natMinBE, natToBytesRev, h1]
  rw [natToBaseRev_foldr (by norm_num) bs.reverse
    (fun x hx => hb x (List.mem_reverse.mp hx))
    (by rw [List.getLast?_reverse]; exact hh)]
  exact List.reverse_reverse bs

theorem pairBE_paddedHexDigits_head {n : Nat} (hn : n ≠ 0) :
    (pairBE (paddedHexDigits n)).head? ≠ some 0 := by
  obtain ⟨d0, Dt, hcons⟩ := List.exists_cons_of_ne_nil (natHexDigits_ne_nil n)
  have hd0 : d0 ≠ 0 := by
    have := natHexDigits_head hn
    rw [hcons] at this
    simpa using this
  unfold paddedHexDigits
  rw [hcons]
  by_cases hodd : (d0 :: Dt).length % 2 = 1
  · rw [if_pos hodd]
    simp only [pairBE, List.head?_cons]
    intro h
    have := Option.some.inj h
    omega
  · rw [if_neg hodd]
    have hDt : Dt ≠ [] := by
      intro hDt
      subst hDt
      simp at hodd
    obtain ⟨d1, Dt2, rfl⟩ := List.exists_cons_of_ne_nil hDt
    simp only [pairBE, List.head?_cons]
    intro h
    have := Option.some.inj h
    omega

theorem toBuffer_canonicalHexOfNat (n : Nat) :
    Hex.toBuffer (.str (canonicalHexOfNat n)) = some (natMinBE n) := by
  have hfix : Hex (.str (canonicalHexOfNat n)) = some (canonicalHexOfNat n) := by
    simp only [Hex]
    exact hexOnStr_fix (isCanonicalHex_canonicalHexOfNat n)
  unfold Hex.toBuffer
  rw [hfix]
  have hdrop : (canonicalHexOfNat n).drop 2 = (paddedHexDigits n).map hexDigitChar := rfl
  simp only [hdrop]
  rw [parse_pairBE _ (paddedHexDigits_lt n)]
  have hval : beVal256 (pairBE (paddedHexDigits n)) = n := by
    rw [beVal256_pairBE (paddedHexDigits_even n)]
    exact beVal16_paddedHexDigits n
  by_cases hn : n = 0
  · subst hn
    have hpd : paddedHexDigits 0 = [0, 0] := rfl
    rw [hpd]
    rw [show pairBE [0, 0] = [0] from rfl]
    rw [if_pos rfl, natMinBE_zero]
  · have hne : pairBE (paddedHexDigits n) ≠ [0] := by
      intro heq
      rw [heq] at hval
      have : beVal256 [0] = 0 := rfl
      omega
    rw [if_neg hne]
    have := natMinBE_beVal256 (pairBE_lt _ (paddedHexDigits_lt n))
      (pairBE_paddedHexDigits_head hn)
    rw [hval] at this
    rw [this]

/-! ### Negative numbers fail the hex conversion -/

theorem hexOnStr_neg (m : Nat) : hexOnStr ('-' :: natToString16 m) = none := by
  have hhex : ∀ c ∈ natToString16 m, isHexChar c = true := by
    intro c hc
    obtain ⟨d, hd, rfl⟩ := List.mem_map.mp hc
    exact isHexChar_hexDigitChar (natHexDigits_lt m d hd)
  have hmap : ('-' :: natToString16 m).map asciiLower = '-' :: natToString16 m := by
    simp only [List.map_cons]
    rw [show asciiLower '-' = '-' by decide]
    congr 1
    calc (natToString16 m).map asciiLower = (natToString16 m).map id :=
          List.map_congr_left (fun c hc => asciiLower_of_isHexChar (hhex c hc))
      _ = natToString16 m := List.map_id _
  have htake : ¬(('-' :: natToString16 m).take 2 = ['0', 'x']) := by
    simp only [List.take_succ_cons]
    intro h
    injection h with h1 _
    exact absurd h1 (by decide)
  simp only [hexOnStr, hexNormalize]
  rw [hmap, if_neg htake]
  by_cases hodd : (('0' :: 'x' :: '-' :: natToString16 m).length % 2 = 1)
  · rw [if_pos hodd]
    simp only [List.drop_succ_cons, List.drop_zero]
    rw [if_neg (by
      simp only [isHexFormat, List.all_cons, Bool.and_eq_true]
      intro h
      exact absurd h.2.1 (by decide))]
  · rw [if_neg hodd]
    rw [if_neg (by
      simp only [isHexFormat, List.all_cons, Bool.and_eq_true]
      intro h
      exact absurd h.1 (by decide))]

theorem Hex_num_neg {i : Int} (hi : i < 0) : Hex (.num i) = none := by
  match i with
  | .ofNat n => exact absurd hi (by simp [Int.ofNat_eq_coe])
  | .negSucc m =>
    simp only [Hex, intToString16]
    exact hexOnStr_neg (m + 1)

/-! ### Claim theorems: the canonical value codec -/

/-- C1: for every `n ≥ 0`, `Hex` renders `n` as its canonical hex string,
`Hex.toBuffer` of that string is the minimal big-endian byte representation
of `n` (no leading zero byte) whose unsigned big-endian value is `n` again;
for `n = 0` the canonical hex is `'0x00'` and the byte conversion is the
empty byte sequence. -/
theorem hex_nat_toBuffer_roundtrip (n : Nat) :
    Hex (.num (n : Int)) = some (canonicalHexOfNat n) ∧
    Hex.toBuffer (.str (canonicalHexOfNat n)) = some (natMinBE n) ∧
    beVal256 (natMinBE n) = n ∧
    (natMinBE n).head? ≠ some 0 ∧
    canonicalHexOfNat 0 = ['0', 'x', '0', '0'] ∧
    natMinBE 0 = [] :=
  ⟨Hex_num_nat n, toBuffer_canonicalHexOfNat n, beVal256_natMinBE n,
    natMinBE_head, rfl, natMinBE_zero⟩

theorem hex_nat_toBuffer_roundtrip_witness :
    Hex.toBuffer (.str (canonicalHexOfNat 4660)) = some (natMinBE 4660) ∧
    beVal256 (natMinBE 4660) = 4660 :=
  ⟨(hex_nat_toBuffer_roundtrip 4660).2.1, (hex_nat_toBuffer_roundtrip 4660).2.2.1⟩

/-- C7: on every string, `Hex` either returns the normalization of the
input (lowercased, `0x`-prefixed, left-zero-padded to even length), which
is a canonical hex value, or fails, and it fails exactly when the
normalized payload contains a non-hex character. -/
theorem hex_string_canonicalization (s : List Char) :
    (∀ t, Hex (.str s) = some t → t = hexNormalize s ∧ isCanonicalHex t = true) ∧
    (Hex (.str s) = none ↔ ∃ c ∈ (hexNormalize s).drop 2, isHexChar c = false) := by
  refine ⟨fun t h => hexOnStr_some h, hexOnStr_none, fun hbad => ?_⟩
  obtain ⟨c, hc, hcf⟩ := hbad
  cases hcase : Hex (.str s) with
  | none => rfl
  | some t =>
    exfalso
    obtain ⟨rfl, hcanon⟩ := hexOnStr_some hcase
    obtain ⟨rest, heq, hall, _⟩ := isCanonicalHex_elim hcanon
    rw [heq] at hc
    simp only [List.drop_succ_cons, List.drop_zero] at hc
    rw [hall c hc] at hcf
    exact absurd hcf (by simp)

theorem hex_string_canonicalization_witness :
    isCanonicalHex ['0', 'x', '0', 'a', 'b', 'c'] = true ∧
    Hex (.str ['x', 'y']) = none :=
  ⟨((hex_string_canonicalization ['A', 'b', 'C']).1 ['0', 'x', '0', 'a', 'b', 'c']
      (by decide)).2,
    (hex_string_canonicalization ['x', 'y']).2.mpr ⟨'x', by decide, by decide⟩⟩

/-- C10: `Hex` is idempotent: every successful output of `Hex` (on any
well-formed runtime value) is itself a fixed point of `Hex`. -/
theorem hex_idempotent {v : JsValue} {t : List Char} (hwf : v.wf)
    (h : Hex v = some t) : Hex (.str t) = some t := by
  simp only [Hex]
  exact hexOnStr_fix (Hex_canonical hwf h)

theorem hex_idempotent_witness :
    Hex (.str ['0', 'x', 'a', 'b']) = some ['0', 'x', 'a', 'b'] :=
  hex_idempotent (v := .str ['0', 'x', 'A', 'b']) trivial (by decide)

/-! ### Claim theorems: `Epoch` -/

/-- `Epoch` on `Number()`'s composite numeric string forms, computed: the
exponent form `'1e2'` (value `100`), the decimal-point form `'5.0'` and
the binary form `'0b101'` (value `5`) are accepted with their values'
canonical hex — uppercase `'1E2'` likewise after the lowercasing — while
the non-integral `'1.5'`, the out-of-grammar `'0x'` and the trimming of
non-ASCII whitespace (here no-break spaces) behave as `Number()` does. -/
theorem Epoch_numeric_string_forms :
    Epoch (.str "1e2".data) = some "0x64".data ∧
    Epoch (.str "1E2".data) = some "0x64".data ∧
    Epoch (.str "5.0".data) = some "0x05".data ∧
    Epoch (.str "0b101".data) = some "0x05".data ∧
    Epoch (.str "1.5".data) = none ∧
    jsNumberOfStr "0x".data = none ∧
    jsNumberOfStr (Char.ofNat 160 :: '4' :: '2' :: Char.ofNat 160 :: []) = some 42 := by
  refine ⟨by decide, by decide, by decide, by decide, by decide, by decide, by decide⟩

/-! ### The polling loop -/

theorem executedF_none {receiptSeq : Nat → Option Receipt} {n : Nat}
    (h : receiptSeq n = none) : executedF receiptSeq n = .ok (none, n + 1) := by
  unfold executedF
  rw [h]

theorem executedF_some {receiptSeq : Nat → Option Receipt} {n : Nat} {r : Receipt}
    (h : receiptSeq n = some r) :
    executedF receiptSeq n =
      if r.outcomeStatus = 0 then .ok (some r, n + 1) else .error .outcomeFail := by
  unfold executedF
  rw [h]

theorem confirmedF_ok {receiptSeq : Nat → Option Receipt} {risk : List Char → ℚ}
    {bar : ℚ} {delta timeout n : Nat} {r : Receipt} {n' : Nat}
    (h : executed receiptSeq delta timeout n = .ok (r, n')) :
    confirmedF receiptSeq risk bar delta timeout n =
      if risk r.blockHash < bar then .ok (some r, n') else .ok (none, n') := by
  unfold confirmedF
  rw [h]

theorem loopAux_ok {α : Type} (func : Nat → Except PollError (Option α × Nat))
    (delta timeout : Nat) :
    ∀ k n fuel {a : α} {n' : Nat},
      loopAux func delta timeout k n fuel = .ok (a, n') →
      ∃ m, func m = .ok (some a, n')
  | _, _, 0, _, _, h => by
    exact absurd h (by rw [loopAux]; simp)
  | k, n, fuel + 1, a, n', h => by
    rw [loopAux] at h
    split at h
    · cases hf : func n with
      | error e =>
        rw [hf] at h
        exact absurd h (by simp)
      | ok p =>
        match p, hf with
        | (some a', n''), hf =>
          rw [hf] at h
          simp only [Except.ok.injEq, Prod.mk.injEq] at h
          exact ⟨n, by rw [hf, h.1, h.2]⟩
        | (none, n''), hf =>
          rw [hf] at h
          exact loopAux_ok func delta timeout (k + 1) n'' fuel h
    · exact absurd h (by simp)

theorem executed_ok {receiptSeq : Nat → Option Receipt} {delta timeout n : Nat}
    {r : Receipt} {n' : Nat}
    (h : executed receiptSeq delta timeout n = .ok (r, n')) :
    r.outcomeStatus = 0 ∧ ∃ m, receiptSeq m = some r := by
  obtain ⟨m, hm⟩ := loopAux_ok (executedF receiptSeq) delta timeout 0 n (timeout + 1) h
  cases hrec : receiptSeq m with
  | none =>
    rw [executedF_none hrec] at hm
    exact absurd hm (by simp)
  | some r0 =>
    rw [executedF_some hrec] at hm
    split at hm
    · next hst =>
      simp only [Except.ok.injEq, Prod.mk.injEq, Option.some.injEq] at hm
      obtain ⟨rfl, -⟩ := hm
      exact ⟨hst, m, hrec⟩
    · exact absurd hm (by simp)

theorem confirmed_ok {receiptSeq : Nat → Option Receipt} {risk : List Char → ℚ}
    {bar : ℚ} {delta timeout n : Nat} {r : Receipt} {n' : Nat}
    (h : confirmed receiptSeq risk bar delta timeout n = .ok (r, n')) :
    r.outcomeStatus = 0 ∧ (∃ m, receiptSeq m = some r) ∧ risk r.blockHash < bar := by
  obtain ⟨m, hm⟩ :=
    loopAux_ok (confirmedF receiptSeq risk bar delta timeout) delta timeout 0 n
      (timeout + 1) h
  cases hex : executed receiptSeq delta timeout m with
  | error e =>
    unfold confirmedF at hm
    rw [hex] at hm
    exact absurd hm (by simp)
  | ok p =>
    match p, hex with
    | (r0, n0), hex =>
      rw [confirmedF_ok hex] at hm
      split at hm
      · next hrisk =>
        simp only [Except.ok.injEq, Prod.mk.injEq, Option.some.injEq] at hm
        obtain ⟨rfl, -⟩ := hm
        obtain ⟨hst, hmem⟩ := executed_ok hex
        exact ⟨hst, hmem, hrisk⟩
      · exact absurd hm (by simp)

/-! ### Claim theorems: the confirmation state machine -/

/-- C5: `executed` only ever returns a receipt the node actually reported
with success outcome status, and fails terminally (with the outcome-failure
error, not a retry) as soon as it observes a receipt with any other status;
`confirmed` only ever returns a receipt for which an inner `executed` call
returned that same success receipt, additionally with its block's risk
coefficient below the threshold — so Confirmed is never reported before
Executed, and Executed is never reported for a non-success receipt. -/
theorem confirmation_state_order (receiptSeq : Nat → Option Receipt)
    (risk : List Char → ℚ) (bar : ℚ) (delta timeout n : Nat) :
    (∀ r n', executed receiptSeq delta timeout n = .ok (r, n') →
      r.outcomeStatus = 0 ∧ ∃ m, receiptSeq m = some r) ∧
    (∀ r n', confirmed receiptSeq risk bar delta timeout n = .ok (r, n') →
      r.outcomeStatus = 0 ∧ (∃ m, receiptSeq m = some r) ∧ risk r.blockHash < bar) ∧
    (∀ r0, receiptSeq n = some r0 → r0.outcomeStatus ≠ 0 → 0 < timeout →
      executed receiptSeq delta timeout n = .error .outcomeFail) := by
  refine ⟨fun r n' h => executed_ok h, fun r n' h => confirmed_ok h,
    fun r0 hrec hbad ht => ?_⟩
  have hF : executedF receiptSeq n = .error .outcomeFail := by
    rw [executedF_some hrec, if_neg hbad]
  unfold executed loop
  rw [loopAux]
  rw [if_pos (by simpa using ht), hF]

theorem confirmation_state_order_witness :
    ((⟨0, ['b'], []⟩ : Receipt).outcomeStatus = 0 ∧
      (∃ m, (fun _ : Nat => some (⟨0, ['b'], []⟩ : Receipt)) m =
        some ⟨0, ['b'], []⟩) ∧
      (fun _ : List Char => (0 : ℚ)) (⟨0, ['b'], []⟩ : Receipt).blockHash < 1) ∧
    executed (fun _ => some ⟨1, ['b'], []⟩) 1000 30000 0 = .error .outcomeFail :=
  ⟨(confirmation_state_order (fun _ => some ⟨0, ['b'], []⟩) (fun _ => 0) 1
      1000 30000 0).2.1 ⟨0, ['b'], []⟩ 1 rfl,
    (confirmation_state_order (fun _ => some ⟨1, ['b'], []⟩) (fun _ => 0) 1
      1000 30000 0).2.2 ⟨1, ['b'], []⟩ rfl (by decide) (by decide)⟩

/-- C6: calling `confirmed` with `timeout = 0` fails with the timeout error
for every client behavior — in particular without the result depending on
any transport response, even when the confirmation condition already holds
— because the loop's deadline check (`0 * delta < 0`) precedes the first
observation. -/
theorem confirmed_timeout_zero (receiptSeq : Nat → Option Receipt)
    (risk : List Char → ℚ) (bar : ℚ) (delta n : Nat) :
    confirmed receiptSeq risk bar delta 0 n = .error .timeout := by
  simp [confirmed, loop, loopAux]

/-! ### Claim theorems: sender recovery -/

/-- C4: reading the recovered sender is total — it either returns `none`
(`undefined`) or a canonical 20-byte (42-character) hex address computed
from the recovered public key; and whenever a signature field is missing
(holds the empty value `'0x'`) it returns `none`, provided the recovery
library rejects empty `r`/`s` buffers and a `NaN` recovery id (which is
what `Number('0x')` produces). -/
theorem sender_total_or_absent (P : SignPrims) (tx : Transaction)
    (hsha_bytes : ∀ d, ∀ b ∈ P.sha3 d, b < 256)
    (hsha_len : ∀ d, (P.sha3 d).length = 32) :
    (Transaction.sender P tx = none ∨
      ∃ a, Transaction.sender P tx = some a ∧ isCanonicalHex a = true ∧
        a.length = 42 ∧
        ∃ h rb sb pk, P.ecdsaRecover h rb sb (jsNumberOfStr tx.v) = some pk ∧
          a = hexOfBytes (publicKeyToAddress P.sha3 pk)) ∧
    ((∀ h rb sb vO, (rb = [] ∨ sb = [] ∨ vO = none) →
        P.ecdsaRecover h rb sb vO = none) →
      (tx.r = ['0', 'x'] ∨ tx.s = ['0', 'x'] ∨ tx.v = ['0', 'x']) →
      Transaction.sender P tx = none) := by
  have haddr : ∀ pk : List Nat,
      isCanonicalHex (hexOfBytes (publicKeyToAddress P.sha3 pk)) = true ∧
      (hexOfBytes (publicKeyToAddress P.sha3 pk)).length = 42 := by
    intro pk
    have hmem : ∀ b ∈ publicKeyToAddress P.sha3 pk, b < 256 := by
      intro b hb
      unfold publicKeyToAddress at hb
      exact hsha_bytes (pk.drop 1) b (List.mem_of_mem_drop hb)
    refine ⟨hexOfBytes_canonical hmem, ?_⟩
    have hlen : (publicKeyToAddress P.sha3 pk).length = 20 := by
      unfold publicKeyToAddress
      rw [List.length_drop, hsha_len]
    unfold hexOfBytes bytesToHexChars
    simp only [List.length_cons, List.length_map, bytesToHexDigits_len, hlen]
  constructor
  · unfold Transaction.sender
    cases h1 : tx.hash P with
    | none => exact Or.inl rfl
    | some h =>
      cases h2 : Hex.toBuffer (.str tx.r) with
      | none => exact Or.inl rfl
      | some rb =>
        cases h3 : Hex.toBuffer (.str tx.s) with
        | none => exact Or.inl rfl
        | some sb =>
          cases hrec : P.ecdsaRecover h rb sb (jsNumberOfStr tx.v) with
          | none =>
            refine Or.inl ?_
            simp only [hrec]
          | some pk =>
            refine Or.inr ⟨_, ?_, (haddr pk).1, (haddr pk).2,
              h, rb, sb, pk, hrec, rfl⟩
            simp only [hrec]
  · intro hmiss hOr
    unfold Transaction.sender
    cases h1 : tx.hash P with
    | none => rfl
    | some h =>
      cases h2 : Hex.toBuffer (.str tx.r) with
      | none => rfl
      | some rb =>
        cases h3 : Hex.toBuffer (.str tx.s) with
        | none => rfl
        | some sb =>
          have hnone : P.ecdsaRecover h rb sb (jsNumberOfStr tx.v) = none := by
            apply hmiss
            rcases hOr with hr | hs | hv
            · left
              rw [hr] at h2
              have : Hex.toBuffer (.str ['0', 'x']) = some [] := rfl
              rw [this] at h2
              exact (Option.some.inj h2).symm
            · right
              left
              rw [hs] at h3
              have : Hex.toBuffer (.str ['0', 'x']) = some [] := rfl
              rw [this] at h3
              exact (Option.some.inj h3).symm
            · right
              right
              rw [hv]
              rfl
          simp only [hnone]

theorem sender_total_or_absent_witness :
    Transaction.sender
      ⟨fun _ => List.replicate 32 0, fun _ _ => ([], [], 0),
        fun _ _ _ _ => none, fun k => k⟩
      ⟨['0', 'x'], ['0', 'x'], ['0', 'x'], ['0', 'x'], ['0', 'x'], ['0', 'x'],
        ['0', 'x'], ['0', 'x'], ['0', 'x']⟩ = none := by
  exact (sender_total_or_absent
    ⟨fun _ => List.replicate 32 0, fun _ _ => ([], [], 0),
      fun _ _ _ _ => none, fun k => k⟩
    ⟨['0', 'x'], ['0', 'x'], ['0', 'x'], ['0', 'x'], ['0', 'x'], ['0', 'x'],
      ['0', 'x'], ['0', 'x'], ['0', 'x']⟩
    (fun d b hb => by
      simp only [List.mem_replicate] at hb
      omega)
    (fun d => by simp)).2
    (fun h rb sb vO _ => rfl)
    (Or.inl rfl)

/-! ### Claim theorems: signing recovers the signer -/

/-- C9: `Account.signTransaction` never returns a transaction whose
recovered sender differs from the account's address: whenever it returns a
transaction at all (rather than throwing), the recovered sender equals the
account's address — which the account constructor derived from its private
key. -/
theorem signTransaction_recovers_own_address (P : SignPrims) (acct : Account)
    (o : RawOptions) (tx' : Transaction)
    (h : Account.signTransaction P acct o = some tx') :
    Transaction.sender P tx' = some acct.address ∧
    (∀ kv, mkAccount P kv = some acct →
      ∃ kb, Hex.toBuffer (.str acct.privateKey) = some kb ∧
        acct.address = hexOfBytes (privateKeyToAddress P kb)) := by
  constructor
  · unfold Account.signTransaction at h
    simp only [Option.bind_eq_bind, Option.bind_eq_some] at h
    obtain ⟨tx, hro, h⟩ := h
    obtain ⟨tx1, hsg, h⟩ := h
    split at h
    · next hcond =>
      obtain rfl : tx1 = tx' := by simpa using h
      exact hcond
    · exact absurd h (by simp)
  · intro kv hkv
    unfold mkAccount at hkv
    simp only [Option.bind_eq_bind, Option.bind_eq_some] at hkv
    obtain ⟨pk, hpk, hkv⟩ := hkv
    obtain ⟨kb, hkb, hkv⟩ := hkv
    obtain ⟨addr, haddr, hkv⟩ := hkv
    obtain rfl : (⟨pk, addr⟩ : Account) = acct := by simpa using hkv
    refine ⟨kb, hkb, ?_⟩
    unfold Address at haddr
    have hhex : Hex (.buf (privateKeyToAddress P kb)) =
        some (hexOfBytes (privateKeyToAddress P kb)) := rfl
    rw [hhex] at haddr
    simp only [Option.bind_eq_bind, Option.some_bind] at haddr
    split at haddr
    · exact (by simpa using haddr :
        hexOfBytes (privateKeyToAddress P kb) = addr).symm
    · exact absurd haddr (by simp)

theorem signTransaction_recovers_own_address_witness :
    Transaction.sender
      ⟨fun _ => List.replicate 32 7,
        fun _ _ => (List.replicate 32 1, List.replicate 32 2, 0),
        fun _ _ _ _ => some (List.replicate 65 3),
        fun _ => List.replicate 65 3⟩
      ⟨['0', 'x', '0', '0'], ['0', 'x', '0', '1'], ['0', 'x', '0', '1'],
        ['0', 'x'], ['0', 'x', '0', '0'], ['0', 'x'],
        hexOfBytes (List.replicate 32 1), hexOfBytes (List.replicate 32 2),
        ['0', 'x', '0', '0']⟩ =
      some (hexOfBytes (List.replicate 20 7)) :=
  (signTransaction_recovers_own_address
    ⟨fun _ => List.replicate 32 7,
      fun _ _ => (List.replicate 32 1, List.replicate 32 2, 0),
      fun _ _ _ _ => some (List.replicate 65 3),
      fun _ => List.replicate 65 3⟩
    ⟨'0' :: 'x' :: List.replicate 64 'a', hexOfBytes (List.replicate 20 7)⟩
    ⟨some (.num 0), some (.num 1), some (.num 1), none, none, none, none,
      none, none⟩
    ⟨['0', 'x', '0', '0'], ['0', 'x', '0', '1'], ['0', 'x', '0', '1'],
      ['0', 'x'], ['0', 'x', '0', '0'], ['0', 'x'],
      hexOfBytes (List.replicate 32 1), hexOfBytes (List.replicate 32 2),
      ['0', 'x', '0', '0']⟩
    (by decide)).1

/-! ### Canonicity of constructed transaction fields -/

theorem toBuffer_of_canonical {t : List Char} (h : isCanonicalHex t = true) :
    ∃ b, Hex.toBuffer (.str t) = some b := by
  unfold Hex.toBuffer
  simp only [Hex]
  rw [hexOnStr_fix h]
  exact ⟨_, rfl⟩

theorem Drip_canonical {v : JsValue} {t : List Char} (h : Drip v = some t) :
    isCanonicalHex t = true := by
  unfold Drip at h
  simp only [Option.bind_eq_bind, Option.bind_eq_some] at h
  obtain ⟨i, hi, h⟩ := h
  obtain ⟨u, hu, h⟩ := h
  have hc := (hexOnStr_some hu).2
  split at h
  · exact absurd h (by simp)
  · obtain rfl : u = t := by simpa using h
    exact hc

theorem Address_canonical {v : JsValue} {t : List Char} (hwf : v.wf)
    (h : Address v = some t) : isCanonicalHex t = true := by
  unfold Address at h
  simp only [Option.bind_eq_bind, Option.bind_eq_some] at h
  obtain ⟨u, hu, h⟩ := h
  have hc := Hex_canonical hwf hu
  split at h
  · obtain rfl : u = t := by simpa using h
    exact hc
  · exact absurd h (by simp)

theorem PrivateKey_canonical {v : JsValue} {t : List Char} (hwf : v.wf)
    (h : PrivateKey v = some t) : isCanonicalHex t = true := by
  unfold PrivateKey at h
  simp only [Option.bind_eq_bind, Option.bind_eq_some] at h
  obtain ⟨u, hu, h⟩ := h
  have hc := Hex_canonical hwf hu
  split at h
  · obtain rfl : u = t := by simpa using h
    exact hc
  · exact absurd h (by simp)

theorem rawOptions_fields_canonical {o : RawOptions} {tx : Transaction}
    (hwf : o.wf) (h : rawOptions o = some tx) :
    isCanonicalHex tx.nonce = true ∧ isCanonicalHex tx.gasPrice = true ∧
    isCanonicalHex tx.gas = true ∧ isCanonicalHex tx.to_ = true ∧
    isCanonicalHex tx.value = true ∧ isCanonicalHex tx.data = true ∧
    isCanonicalHex tx.r = true ∧ isCanonicalHex tx.s = true ∧
    isCanonicalHex tx.v = true := by
  obtain ⟨w1, w2, w3, w4, w5, w6, w7, w8, w9⟩ := hwf
  unfold rawOptions at h
  simp only [Option.bind_eq_bind] at h
  rw [Option.bind_eq_some] at h
  obtain ⟨nonce, hn, h⟩ := h
  rw [Option.bind_eq_some] at h
  obtain ⟨gasPrice, hgp, h⟩ := h
  rw [Option.bind_eq_some] at h
  obtain ⟨gas, hg, h⟩ := h
  rw [Option.bind_eq_some] at h
  obtain ⟨to_, hto, h⟩ := h
  rw [Option.bind_eq_some] at h
  obtain ⟨value, hv, h⟩ := h
  rw [Option.bind_eq_some] at h
  obtain ⟨data, hd, h⟩ := h
  rw [Option.bind_eq_some] at h
  obtain ⟨r, hr, h⟩ := h
  rw [Option.bind_eq_some] at h
  obtain ⟨s, hs, h⟩ := h
  rw [Option.bind_eq_some] at h
  obtain ⟨v, hvv, h⟩ := h
  obtain rfl : (⟨nonce, gasPrice, gas, to_, value, data, r, s, v⟩ : Transaction) = tx := by
    simpa using h
  have hex0 : isCanonicalHex ['0', 'x'] = true := by decide
  have fromHexR : ∀ {q : Option JsValue} {t : List Char}, optWf q →
      reqField Hex q = some t → isCanonicalHex t = true := by
    intro q t hq hmatch
    match q with
    | none => exact absurd hmatch (by simp [reqField])
    | some x => exact Hex_canonical hq hmatch
  have fromHexD : ∀ {q : Option JsValue} {t : List Char}, optWf q →
      defField Hex (Hex .null) q = some t → isCanonicalHex t = true := by
    intro q t hq hmatch
    match q with
    | none =>
      obtain rfl : (['0', 'x'] : List Char) = t := by
        have : defField Hex (Hex .null) none = some ['0', 'x'] := rfl
        rw [this] at hmatch
        exact Option.some.inj hmatch
      exact hex0
    | some x => exact Hex_canonical hq hmatch
  refine ⟨fromHexR w1 hn, ?_, fromHexR w3 hg, ?_, ?_, ?_, fromHexD w7 hr,
    fromHexD w8 hs, fromHexD w9 hvv⟩
  · match hq : o.gasPrice with
    | none =>
      rw [hq] at hgp
      exact absurd hgp (by simp [reqField])
    | some x =>
      rw [hq] at hgp
      exact Drip_canonical hgp
  · match hq : o.to_ with
    | none =>
      rw [hq] at hto
      obtain rfl : (['0', 'x'] : List Char) = to_ := by
        have : defField Address (Hex .null) none = some ['0', 'x'] := rfl
        rw [this] at hto
        exact Option.some.inj hto
      exact hex0
    | some x =>
      rw [hq] at hto
      exact Address_canonical (by rw [hq] at w4; exact w4) hto
  · match hq : o.value with
    | none =>
      rw [hq] at hv
      exact Drip_canonical (v := .num 0) hv
    | some x =>
      rw [hq] at hv
      exact Drip_canonical hv
  · match hq : o.data with
    | none =>
      rw [hq] at hd
      obtain rfl : (['0', 'x'] : List Char) = data := by
        have : defField Hex (Hex (.str [])) none = some ['0', 'x'] := rfl
        rw [this] at hd
        exact Option.some.inj hd
      exact hex0
    | some x =>
      rw [hq] at hd
      exact Hex_canonical (by rw [hq] at w6; exact w6) hd

/-! ### Claim theorems: the transaction wire encoding -/

/-- C3 (counterexample): a transaction constructed with the hex-string
nonce `'0x0001'` stores that hex verbatim, so its encoding carries the
leading zero byte `[0, 1]` for nonce instead of nonce's minimal big-endian
byte form `[1]` — `encode(tx, false)` is not the RLP of the minimal
big-endian field representations for every transaction. -/
theorem encode_minimal_be_counterexample :
    rawOptions ⟨some (.str ['0', 'x', '0', '0', '0', '1']), some (.num 1),
        some (.num 1), none, none, none, none, none, none⟩ =
      some ⟨['0', 'x', '0', '0', '0', '1'], ['0', 'x', '0', '1'],
        ['0', 'x', '0', '1'], ['0', 'x'], ['0', 'x', '0', '0'], ['0', 'x'],
        ['0', 'x'], ['0', 'x'], ['0', 'x']⟩ ∧
    Transaction.encode
      ⟨['0', 'x', '0', '0', '0', '1'], ['0', 'x', '0', '1'],
        ['0', 'x', '0', '1'], ['0', 'x'], ['0', 'x', '0', '0'], ['0', 'x'],
        ['0', 'x'], ['0', 'x'], ['0', 'x']⟩ false =
      some [200, 130, 0, 1, 1, 1, 128, 128, 128] ∧
    rlpEncodeList [natMinBE 1, natMinBE 1, natMinBE 1, [], natMinBE 0, []] =
      [198, 1, 1, 1, 128, 128, 128] ∧
    [200, 130, 0, 1, 1, 1, 128, 128, 128] ≠ [198, 1, 1, 1, 128, 128, 128] := by
  refine ⟨by decide, by decide, by decide, by decide⟩

/-- C3 (amended): for every transaction built by the constructor from
well-formed options, `encode(tx, false)` is the RLP encoding of exactly the
six-element byte-string list `[nonce, gasPrice, gas, to, value, data]` and
`encode(tx, true)` of the nine-element list with `v`, `r`, `s` appended,
where each element is `Hex.toBuffer` of the stored canonical hex (so the
single zero byte collapses to the empty string); for every scalar field
stored as the canonical hex of an unsigned integer `n`, that byte form is
the minimal big-endian representation of `n` (empty for zero) — but a field
given with superfluous leading zero hex digits keeps its zero bytes. -/
theorem encode_rlp_toBuffer_fields (o : RawOptions) (tx : Transaction)
    (hwf : o.wf) (h : rawOptions o = some tx) :
    ∃ b1 b2 b3 b4 b5 b6 b7 b8 b9,
      Hex.toBuffer (.str tx.nonce) = some b1 ∧
      Hex.toBuffer (.str tx.gasPrice) = some b2 ∧
      Hex.toBuffer (.str tx.gas) = some b3 ∧
      Hex.toBuffer (.str tx.to_) = some b4 ∧
      Hex.toBuffer (.str tx.value) = some b5 ∧
      Hex.toBuffer (.str tx.data) = some b6 ∧
      Hex.toBuffer (.str tx.v) = some b7 ∧
      Hex.toBuffer (.str tx.r) = some b8 ∧
      Hex.toBuffer (.str tx.s) = some b9 ∧
      tx.encode false = some (rlpEncodeList [b1, b2, b3, b4, b5, b6]) ∧
      tx.encode true = some (rlpEncodeList [b1, b2, b3, b4, b5, b6, b7, b8, b9]) ∧
      (∀ n : Nat, tx.nonce = canonicalHexOfNat n → b1 = natMinBE n) ∧
      (∀ n : Nat, tx.gasPrice = canonicalHexOfNat n → b2 = natMinBE n) ∧
      (∀ n : Nat, tx.gas = canonicalHexOfNat n → b3 = natMinBE n) ∧
      (∀ n : Nat, tx.value = canonicalHexOfNat n → b5 = natMinBE n) := by
  obtain ⟨c1, c2, c3, c4, c5, c6, c7, c8, c9⟩ := rawOptions_fields_canonical hwf h
  obtain ⟨b1, h1⟩ := toBuffer_of_canonical c1
  obtain ⟨b2, h2⟩ := toBuffer_of_canonical c2
  obtain ⟨b3, h3⟩ := toBuffer_of_canonical c3
  obtain ⟨b4, h4⟩ := toBuffer_of_canonical c4
  obtain ⟨b5, h5⟩ := toBuffer_of_canonical c5
  obtain ⟨b6, h6⟩ := toBuffer_of_canonical c6
  obtain ⟨b8, h8⟩ := toBuffer_of_canonical c7
  obtain ⟨b9, h9⟩ := toBuffer_of_canonical c8
  obtain ⟨b7, h7⟩ := toBuffer_of_canonical c9
  have hmin : ∀ {t : List Char} {b : List Nat},
      Hex.toBuffer (.str t) = some b →
      ∀ n : Nat, t = canonicalHexOfNat n → b = natMinBE n := by
    intro t b hb n hn
    rw [hn, toBuffer_canonicalHexOfNat n] at hb
    exact (Option.some.inj hb).symm
  have hm6 : toBuffers [tx.nonce, tx.gasPrice, tx.gas, tx.to_, tx.value, tx.data] =
      some [b1, b2, b3, b4, b5, b6] := by
    simp [toBuffers, h1, h2, h3, h4, h5, h6]
  have hm9 : toBuffers [tx.nonce, tx.gasPrice, tx.gas, tx.to_, tx.value, tx.data,
      tx.v, tx.r, tx.s] = some [b1, b2, b3, b4, b5, b6, b7, b8, b9] := by
    simp [toBuffers, h1, h2, h3, h4, h5, h6, h7, h8, h9]
  refine ⟨b1, b2, b3, b4, b5, b6, b7, b8, b9, h1, h2, h3, h4, h5, h6, h7, h8, h9,
    ?_, ?_, hmin h1, hmin h2, hmin h3, hmin h5⟩
  · unfold Transaction.encode
    simp [hm6]
  · unfold Transaction.encode
    simp [hm9]

theorem encode_rlp_toBuffer_fields_witness :
    Transaction.encode
      ⟨['0', 'x', '0', '1'], ['0', 'x', '0', '1'], ['0', 'x', '0', '1'],
        ['0', 'x'], ['0', 'x', '0', '0'], ['0', 'x'], ['0', 'x'], ['0', 'x'],
        ['0', 'x']⟩ false =
      some (rlpEncodeList [[1], [1], [1], [], [], []]) := by
  obtain ⟨b1, b2, b3, b4, b5, b6, b7, b8, b9, h1, h2, h3, h4, h5, h6, h7, h8, h9,
      he6, he9, hmn, hmgp, hmg, hmv⟩ :=
    encode_rlp_toBuffer_fields
      ⟨some (.num 1), some (.num 1), some (.num 1), none, none, none, none,
        none, none⟩
      ⟨['0', 'x', '0', '1'], ['0', 'x', '0', '1'], ['0', 'x', '0', '1'],
        ['0', 'x'], ['0', 'x', '0', '0'], ['0', 'x'], ['0', 'x'], ['0', 'x'],
        ['0', 'x']⟩
      ⟨trivial, trivial, trivial, trivial, trivial, trivial, trivial, trivial,
        trivial⟩
      (by decide)
  have e1 : b1 = [1] := by rw [hmn 1 rfl]; rfl
  have e2 : b2 = [1] := by rw [hmgp 1 rfl]; rfl
  have e3 : b3 = [1] := by rw [hmg 1 rfl]; rfl
  have e5 : b5 = [] := by rw [hmv 0 rfl]; rfl
  have e4 : b4 = [] := by
    rw [show Hex.toBuffer (.str ['0', 'x']) = some [] from rfl] at h4
    exact (Option.some.inj h4).symm
  have e6 : b6 = [] := by
    rw [show Hex.toBuffer (.str ['0', 'x']) = some [] from rfl] at h6
    exact (Option.some.inj h6).symm
  rw [e1, e2, e3, e4, e5, e6] at he6
  exact he6

/-! ### Claim theorems: the keystore cipher -/

theorem hexOfBytes_inj {a b : List Nat} (ha : ∀ x ∈ a, x < 256)
    (hb : ∀ x ∈ b, x < 256) (h : hexOfBytes a = hexOfBytes b) : a = b := by
  have h2 := congrArg (fun t => parseHexPairs (t.drop 2)) h
  simp only [hexOfBytes, List.drop_succ_cons, List.drop_zero] at h2
  rwa [parseHexPairs_bytesToHexChars ha, parseHexPairs_bytesToHexChars hb] at h2

theorem PrivateKey_hexOfBytes {k : List Nat} (hkl : k.length = 32)
    (hkb : ∀ b ∈ k, b < 256) :
    PrivateKey (.str (hexOfBytes k)) = some (hexOfBytes k) := by
  unfold PrivateKey
  have hfix : Hex (.str (hexOfBytes k)) = some (hexOfBytes k) := by
    simp only [Hex]
    exact hexOnStr_fix (hexOfBytes_canonical hkb)
  rw [hfix]
  simp only [Option.bind_eq_bind, Option.some_bind]
  rw [if_pos (by
    unfold hexOfBytes bytesToHexChars
    simp only [List.length_cons, List.length_map, bytesToHexDigits_len, hkl])]

theorem decrypt_parsed {P : CryptoPrims} {record : KeystoreRecord} {pw : List Nat}
    {saltB ivB cipherB : List Nat}
    (hver : record.version = cryptVersion)
    (hs : Hex.toBuffer (.str record.salt) = some saltB)
    (hi : Hex.toBuffer (.str record.iv) = some ivB)
    (hc : Hex.toBuffer (.str record.cipher) = some cipherB) :
    PrivateKey.decrypt P record pw =
      if hexOfBytes (P.sha3 (((P.scrypt32 pw saltB).drop 16).take 16 ++ cipherB)) ≠
          record.mac then
        .error .badMac
      else
        .ok (hexOfBytes (P.decipheriv ((P.scrypt32 pw saltB).take 16) ivB cipherB)) := by
  unfold PrivateKey.decrypt
  rw [if_neg (by rw [hver]; simp), hs, hi, hc]

/-- C2 (amended): with the stored salt and a fresh IV, decrypting an
encrypted keystore record with the original password returns the canonical
hex of the 32-byte private key; decrypting with a password whose derived
key material differs in the MAC half (bytes 16..32 of the scrypt output)
fails with the MAC-mismatch error, and does so for every decryption
primitive — the failure precedes any decryption.  (If the derived material
differs only in the cipher-key half, the MAC check passes and decryption
proceeds — see the counterexample.) -/
theorem keystore_roundtrip_and_mac (P : CryptoPrims) (L : P.Lawful)
    (salt iv k pw p2 : List Nat)
    (hsl : salt.length = 32) (hsb : ∀ b ∈ salt, b < 256)
    (hil : iv.length = 16) (hib : ∀ b ∈ iv, b < 256)
    (hkl : k.length = 32) (hkb : ∀ b ∈ k, b < 256)
    (hpwb : ∀ b ∈ pw, b < 256) (hp2b : ∀ b ∈ p2, b < 256) :
    ∃ record, PrivateKey.encrypt P salt iv (hexOfBytes k) pw = some record ∧
      PrivateKey.decrypt P record pw = .ok (hexOfBytes k) ∧
      (((P.scrypt32 p2 salt).drop 16).take 16 ≠
          ((P.scrypt32 pw salt).drop 16).take 16 →
        ∀ dec', PrivateKey.decrypt { P with decipheriv := dec' } record p2 =
          .error .badMac) := by
  have hkne : k ≠ [0] := by
    intro hk
    rw [hk] at hkl
    simp at hkl
  have hsne : salt ≠ [0] := by
    intro hk
    rw [hk] at hsl
    simp at hsl
  have hine : iv ≠ [0] := by
    intro hk
    rw [hk] at hil
    simp at hil
  have hCb : ∀ b ∈ P.cipheriv ((P.scrypt32 pw salt).take 16) iv k, b < 256 :=
    L.cipher_bytes _ _ _ hkb
  have hCne : P.cipheriv ((P.scrypt32 pw salt).take 16) iv k ≠ [0] := by
    intro hc
    have hcl := L.cipher_len ((P.scrypt32 pw salt).take 16) iv k
    rw [hc, hkl] at hcl
    simp at hcl
  refine ⟨⟨cryptVersion, hexOfBytes salt, hexOfBytes iv,
    hexOfBytes (P.cipheriv ((P.scrypt32 pw salt).take 16) iv k),
    hexOfBytes (P.sha3 (((P.scrypt32 pw salt).drop 16).take 16 ++
      P.cipheriv ((P.scrypt32 pw salt).take 16) iv k))⟩, ?_, ?_, ?_⟩
  · unfold PrivateKey.encrypt
    rw [PrivateKey_hexOfBytes hkl hkb]
    simp only [Option.bind_eq_bind, Option.some_bind]
    rw [toBuffer_hexOfBytes hkb hkne]
    simp only [Option.some_bind]
    rfl
  · have hstep :
        PrivateKey.decrypt P
          ⟨cryptVersion, hexOfBytes salt, hexOfBytes iv,
            hexOfBytes (P.cipheriv ((P.scrypt32 pw salt).take 16) iv k),
            hexOfBytes (P.sha3 (((P.scrypt32 pw salt).drop 16).take 16 ++
              P.cipheriv ((P.scrypt32 pw salt).take 16) iv k))⟩ pw =
          if hexOfBytes (P.sha3 (((P.scrypt32 pw salt).drop 16).take 16 ++
              P.cipheriv ((P.scrypt32 pw salt).take 16) iv k)) ≠
              hexOfBytes (P.sha3 (((P.scrypt32 pw salt).drop 16).take 16 ++
                P.cipheriv ((P.scrypt32 pw salt).take 16) iv k)) then
            .error .badMac
          else
            .ok (hexOfBytes (P.decipheriv ((P.scrypt32 pw salt).take 16) iv
              (P.cipheriv ((P.scrypt32 pw salt).take 16) iv k))) :=
      decrypt_parsed rfl (toBuffer_hexOfBytes hsb hsne)
        (toBuffer_hexOfBytes hib hine) (toBuffer_hexOfBytes hCb hCne)
    rw [hstep, if_neg (fun hne => hne rfl), L.decipher_cipher _ _ _ hkb]
  · intro hdiff dec'
    have hstep :
        PrivateKey.decrypt { P with decipheriv := dec' }
          ⟨cryptVersion, hexOfBytes salt, hexOfBytes iv,
            hexOfBytes (P.cipheriv ((P.scrypt32 pw salt).take 16) iv k),
            hexOfBytes (P.sha3 (((P.scrypt32 pw salt).drop 16).take 16 ++
              P.cipheriv ((P.scrypt32 pw salt).take 16) iv k))⟩ p2 =
          if hexOfBytes (P.sha3 (((P.scrypt32 p2 salt).drop 16).take 16 ++
              P.cipheriv ((P.scrypt32 pw salt).take 16) iv k)) ≠
              hexOfBytes (P.sha3 (((P.scrypt32 pw salt).drop 16).take 16 ++
                P.cipheriv ((P.scrypt32 pw salt).take 16) iv k)) then
            .error .badMac
          else
            .ok (hexOfBytes (dec' ((P.scrypt32 p2 salt).take 16) iv
              (P.cipheriv ((P.scrypt32 pw salt).take 16) iv k))) :=
      decrypt_parsed rfl (toBuffer_hexOfBytes hsb hsne)
        (toBuffer_hexOfBytes hib hine) (toBuffer_hexOfBytes hCb hCne)
    rw [hstep]
    rw [if_pos ?hne]
    case hne =>
      intro heq
      have hslice2 : ∀ b ∈ ((P.scrypt32 p2 salt).drop 16).take 16, b < 256 :=
        fun b hbmem =>
          L.scrypt_bytes p2 salt hp2b hsb b
            (List.mem_of_mem_drop (List.mem_of_mem_take hbmem))
      have hslice1 : ∀ b ∈ ((P.scrypt32 pw salt).drop 16).take 16, b < 256 :=
        fun b hbmem =>
          L.scrypt_bytes pw salt hpwb hsb b
            (List.mem_of_mem_drop (List.mem_of_mem_take hbmem))
      have hm2 : ∀ b ∈ P.sha3 (((P.scrypt32 p2 salt).drop 16).take 16 ++
          P.cipheriv ((P.scrypt32 pw salt).take 16) iv k), b < 256 := by
        apply L.sha3_bytes
        intro b hbmem
        rcases List.mem_append.mp hbmem with hbm | hbm
        · exact hslice2 b hbm
        · exact hCb b hbm
      have hm1 : ∀ b ∈ P.sha3 (((P.scrypt32 pw salt).drop 16).take 16 ++
          P.cipheriv ((P.scrypt32 pw salt).take 16) iv k), b < 256 := by
        apply L.sha3_bytes
        intro b hbmem
        rcases List.mem_append.mp hbmem with hbm | hbm
        · exact hslice1 b hbm
        · exact hCb b hbm
      have hsha := hexOfBytes_inj hm2 hm1 heq
      have happ := L.sha3_inj hsha
      have hlen : (((P.scrypt32 p2 salt).drop 16).take 16).length =
          (((P.scrypt32 pw salt).drop 16).take 16).length := by
        simp only [List.length_take, List.length_drop,
          L.scrypt_len p2 salt, L.scrypt_len pw salt]
      exact hdiff (List.append_inj happ hlen).1

/-- C2 (counterexample): under lawful primitives whose derived key material
for passwords `[1]` and `[2]` differs (in the cipher-key half only), the
encrypt-then-decrypt-with-wrong-password sequence does not fail with a MAC
mismatch: it succeeds and returns a key. -/
theorem keystore_wrong_password_counterexample :
    cexPrims.scrypt32 [2] (List.replicate 32 3) ≠
      cexPrims.scrypt32 [1] (List.replicate 32 3) ∧
    ((PrivateKey.encrypt cexPrims (List.replicate 32 3) (List.replicate 16 4)
        (hexOfBytes (List.replicate 32 9)) [1]).map
      (fun record => PrivateKey.decrypt cexPrims record [2])) =
      some (.ok (hexOfBytes (List.replicate 32 9))) :=
  ⟨by decide, rfl⟩

theorem keystore_roundtrip_and_mac_witness :
    ((PrivateKey.encrypt cexPrims (List.replicate 32 3) (List.replicate 16 4)
        (hexOfBytes (List.replicate 32 9)) [1]).map
      (fun record => PrivateKey.decrypt cexPrims record [1])) =
      some (.ok (hexOfBytes (List.replicate 32 9))) := by
  have hlaw : cexPrims.Lawful := by
    constructor
    · intro pw salt
      simp only [cexPrims, List.length_append, List.length_take,
        List.length_replicate]
      omega
    · intro pw salt hpw hsalt b hb
      simp only [cexPrims] at hb
      rcases List.mem_append.mp hb with hb | hb
      · rcases List.mem_append.mp (List.mem_of_mem_take hb) with hb | hb
        · exact hpw b hb
        · simp only [List.mem_replicate] at hb
          omega
      · simp only [List.mem_replicate] at hb
        omega
    · intro d hd b hb
      exact hd b hb
    · intro key iv d
      simp [cexPrims]
    · intro key iv d hd b hb
      simp only [cexPrims, List.mem_reverse] at hb
      exact hd b hb
    · intro key iv d _
      simp [cexPrims]
    · intro a b h
      exact h
  obtain ⟨record, henc, hdec, -⟩ :=
    keystore_roundtrip_and_mac cexPrims hlaw (List.replicate 32 3)
      (List.replicate 16 4) (List.replicate 32 9) [1] [2]
      (by simp) (by intro b hb; simp only [List.mem_replicate] at hb; omega)
      (by simp) (by intro b hb; simp only [List.mem_replicate] at hb; omega)
      (by simp) (by intro b hb; simp only [List.mem_replicate] at hb; omega)
      (by intro b hb; simp at hb; omega)
      (by intro b hb; simp at hb; omega)
  rw [henc]
  exact congrArg some hdec

end Conflux
